import Mathlib

/-!
Shallow embedding of the DAS core of `rust-kzg` (`src/kzg/src/das.rs`) and of
the external contracts it relies on (FFT backend, `Fr`/`G1` capabilities,
bit-reversal utilities from `common_utils`, EIP-4844 helpers), the latter
modelled from the specification where the source is not part of the
repository snapshot.

The scalar field `Fr` is embedded as an arbitrary `Field F` with decidable
equality; the group `G1` as an additive commutative group `G` with an
`F`-module structure (scalar multiplication); `G2` as an opaque type `H`.
Fallible Rust functions returning `Result<_, String>` are embedded as
`Except Err _` where `Err` has one constructor per distinct error string of
the source (plus constructors for failures of the modelled external
collaborators).
-/

deriving instance DecidableEq for Except

namespace RustKZG

/-- One constructor per distinct error string appearing in `das.rs`, plus
constructors for failures of external collaborators that are modelled from
the spec (`Fr::div`, `reverse_bit_order`, the FFT backend).  Sites of the
source that share an error string share a constructor. -/
inductive Err where
  /-- "Invalid output array length" -/
  | invalidOutputLength
  /-- "Cell indicies mismatch - cells length must be equal to cell indicies length" -/
  | cellIndicesMismatch
  /-- "Cell length cannot be larger than CELLS_PER_EXT_BLOB" -/
  | cellLengthTooLarge
  /-- "Impossible to recover - cells length cannot be less than CELLS_PER_EXT_BLOB / 2" -/
  | insufficientCells
  /-- "Cell index cannot be larger than CELLS_PER_EXT_BLOB" -/
  | cellIndexTooLarge
  /-- "Invalid output cell" (duplicate-index detection during the scatter) -/
  | invalidOutputCell
  /-- "Invalid input length" (`coset_fft` / `coset_ifft` on empty input) -/
  | invalidInputLength
  /-- "Roots cannot be empty" -/
  | rootsEmpty
  /-- "Invalid missing cell indicies count" -/
  | invalidMissingCount
  /-- "Not enough cells" -/
  | notEnoughCells
  /-- "Stride cannot be zero" -/
  | strideZero
  /-- "Cell count mismatch" (`verify_cell_kzg_proof_batch` and challenge derivation) -/
  | cellCountMismatch
  /-- "Commitment count mismatch" -/
  | commitmentCountMismatch
  /-- "Proof count mismatch" -/
  | proofCountMismatch
  /-- "Invalid cell index" (shared by the batch-verification index check and by
  `get_inv_coset_shift_for_cell` / `get_coset_shift_pow_for_cell`) -/
  | invalidCellIndex
  /-- "Proof is not valid" -/
  | proofNotValid
  /-- "Commitment is not valid" -/
  | commitmentNotValid
  /-- "Failed to create challenge - invalid length" -/
  | challengeLength
  /-- "Length mismatch" (`computed_weighted_sum_of_proofs`) -/
  | lengthMismatch
  /-- Modelled from the spec: `Fr::div` "fails if divisor is zero" (external `Fr` backend). -/
  | divByZero
  /-- Modelled from the spec: `reverse_bit_order` "Requires `len` to be a non-zero power
  of two; fails otherwise" (external `common_utils`, not under `src/`). -/
  | rboLength
  /-- Modelled from the spec: the backend FFT is only specified "for any power-of-two
  length up to `max_width`"; the model fails on other lengths (external FFT backend). -/
  | fftLength
  deriving DecidableEq, Repr

/-- Fuel-driven floor base-2 logarithm (structural recursion, so that concrete
witnesses evaluate inside the kernel; the fuel `n` itself always suffices). -/
def log2floor : Nat → Nat → Nat
  | 0, _ => 0
  | fuel + 1, n => if n ≤ 1 then 0 else log2floor fuel (n / 2) + 1

/-- Floor base-2 logarithm. -/
def nlog2 (n : Nat) : Nat := log2floor n n

/-- `n` is a non-zero power of two. -/
def isPow2 (n : Nat) : Bool := n ≠ 0 && n = 2 ^ nlog2 n

/-- Modelled from the spec: `reverse_bits_limited(n, i)` from `common_utils`
(not under `src/`) "returns the bit-reversal of `i` within `log2(n)` bits". -/
def reverse_bits_limited (n i : Nat) : Nat :=
  (List.range (nlog2 n)).foldl (fun acc b => acc * 2 + (i / 2 ^ b) % 2) 0

/-- Modelled from the spec: `reverse_bit_order(buf)` from `common_utils`
(not under `src/`) "permutes `buf` in place so that element at index `i` moves
to index equal to the bit-reversal of `i` within `log2(len)` bits.  Requires
`len` to be a non-zero power of two; fails otherwise."  Since the bit-reversal
permutation is an involution, the element at index `i` of the result is the
element at index `reverse_bits_limited len i` of the input. -/
def reverse_bit_order {α : Type} [Inhabited α] (l : List α) : Except Err (List α) :=
  if isPow2 l.length then
    .ok ((List.range l.length).map fun i => l.getD (reverse_bits_limited l.length i) default)
  else
    .error .rboLength

/-- The `Preset` trait of `das.rs` (protocol size constants). -/
structure PresetM where
  FIELD_ELEMENTS_PER_BLOB : Nat
  FIELD_ELEMENTS_PER_EXT_BLOB : Nat
  CELLS_PER_EXT_BLOB : Nat

/-- Modelled from the spec: the crate-level constant `CELLS_PER_EXT_BLOB` imported
in `das.rs` from `crate::eth` (not under `src/`); the mainnet value is 128. -/
def CELLS_PER_EXT_BLOB : Nat := 128

/-- The 128-entry constant table `CELL_INDICES_RBL` of `das.rs`
(`CELL_INDICES_RBL[i] = reverse_bits_limited(128, i)`). -/
def CELL_INDICES_RBL : List Nat := [
  0x00, 0x40, 0x20, 0x60, 0x10, 0x50, 0x30, 0x70, 0x08, 0x48, 0x28, 0x68, 0x18, 0x58, 0x38, 0x78,
  0x04, 0x44, 0x24, 0x64, 0x14, 0x54, 0x34, 0x74, 0x0c, 0x4c, 0x2c, 0x6c, 0x1c, 0x5c, 0x3c, 0x7c,
  0x02, 0x42, 0x22, 0x62, 0x12, 0x52, 0x32, 0x72, 0x0a, 0x4a, 0x2a, 0x6a, 0x1a, 0x5a, 0x3a, 0x7a,
  0x06, 0x46, 0x26, 0x66, 0x16, 0x56, 0x36, 0x76, 0x0e, 0x4e, 0x2e, 0x6e, 0x1e, 0x5e, 0x3e, 0x7e,
  0x01, 0x41, 0x21, 0x61, 0x11, 0x51, 0x31, 0x71, 0x09, 0x49, 0x29, 0x69, 0x19, 0x59, 0x39, 0x79,
  0x05, 0x45, 0x25, 0x65, 0x15, 0x55, 0x35, 0x75, 0x0d, 0x4d, 0x2d, 0x6d, 0x1d, 0x5d, 0x3d, 0x7d,
  0x03, 0x43, 0x23, 0x63, 0x13, 0x53, 0x33, 0x73, 0x0b, 0x4b, 0x2b, 0x6b, 0x1b, 0x5b, 0x3b, 0x7b,
  0x07, 0x47, 0x27, 0x67, 0x17, 0x57, 0x37, 0x77, 0x0f, 0x4f, 0x2f, 0x6f, 0x1f, 0x5f, 0x3f, 0x7f]

section Backend

variable {F : Type} [Field F] [DecidableEq F]

/-- Modelled from the spec: the distinguished `Fr::null()` sentinel of the external
`Fr` trait, "used to mark missing cells"; `is_null` is the test against it. -/
class FrNullM (F : Type) where
  null : F

/-- `Fr::is_null` of the external `Fr` trait: the test against the sentinel. -/
def isNull [FrNullM F] (x : F) : Bool := x = FrNullM.null

/-- Modelled from the spec: `Fr::div` of the external `Fr` trait
("div (fails if divisor is zero)"). -/
def frDiv (a b : F) : Except Err F :=
  if b = 0 then .error .divByZero else .ok (a * b⁻¹)

/-- Modelled from the spec: the `FFTSettings` trait is an external contract; the
model keeps `max_width` and the expanded roots-of-unity table, exposed through
`get_roots_of_unity_at` (`rootsOfUnity i` stands for `ω^i`). -/
structure FFTSettingsM (F : Type) where
  maxWidth : Nat
  rootsOfUnity : Nat → F

/-- The plain discrete Fourier transform `DFT(a)[k] = Σᵢ aᵢ · ω^(i·k)`
(spec §4.2: "Forward FFT: `FFT(a)[k] = Σ aᵢ · ω^{ik}`"). -/
def dft (ω : F) (a : List F) : List F :=
  (List.range a.length).map fun k =>
    ((List.range a.length).map fun i => a.getD i 0 * ω ^ (i * k)).sum

/-- Modelled from the spec: the backend's `fft_fr` over `Fr`, specified as
correct "for any power-of-two length up to `max_width`"; the root of unity of
order `n` is `ω^(max_width/n)`; the "Inverse FFT scales by `1/n`". -/
def fftFr (fs : FFTSettingsM F) (a : List F) (inverse : Bool) : Except Err (List F) :=
  if isPow2 a.length ∧ a.length ≤ fs.maxWidth then
    let ω := fs.rootsOfUnity (fs.maxWidth / a.length)
    if inverse then
      .ok ((dft ω⁻¹ a).map fun x => (a.length : F)⁻¹ * x)
    else
      .ok (dft ω a)
  else
    .error .fftLength

variable {G : Type} [AddCommGroup G] [Module F G] [DecidableEq G]

/-- The group-side DFT `DFT(a)[k] = Σᵢ ω^(i·k) · aᵢ` used by `fft_g1`. -/
def dftG1 (ω : F) (a : List G) : List G :=
  (List.range a.length).map fun k =>
    ((List.range a.length).map fun i => ω ^ (i * k) • a.getD i 0).sum

/-- Modelled from the spec: the backend's `fft_g1` over `G1` (same contract as
`fft_fr`, over the group with scalar multiplication). -/
def fftG1 (fs : FFTSettingsM F) (a : List G) (inverse : Bool) : Except Err (List G) :=
  if isPow2 a.length ∧ a.length ≤ fs.maxWidth then
    let ω := fs.rootsOfUnity (fs.maxWidth / a.length)
    if inverse then
      .ok ((dftG1 ω⁻¹ a).map fun x => (a.length : F)⁻¹ • x)
    else
      .ok (dftG1 ω a)
  else
    .error .fftLength

/-- Modelled from the spec: `g1_lincomb(points, scalars, len)` of the external
`G1` trait, "returning Σ pointsᵢ·scalarsᵢ" over the first `len` entries. -/
def g1_lincomb (points : List G) (scalars : List F) (len : Nat) : G :=
  ((List.range len).map fun i => scalars.getD i 0 • points.getD i 0).sum

/-- Modelled from the spec: `compute_powers(r, n) = [1, r, r², …, r^(n−1)]`
from `eip_4844` (not under `src/`). -/
def compute_powers (r : F) (n : Nat) : List F :=
  (List.range n).map fun i => r ^ i

/-- The `KZGSettings` trait as used by `das.rs`: the FFT settings, the monomial
trusted setup on both groups, and the precomputed `x_ext_fft` columns. -/
structure KZGSettingsM (F G H : Type) where
  fftSettings : FFTSettingsM F
  g1Monomial : List G
  g2Monomial : List H
  xExtFftColumns : Nat → List G

/-- Modelled from the spec: remaining external capabilities used by
`verify_cell_kzg_proof_batch`: subgroup checks, byte encodings, the SHA-256 +
`hash_to_bls_field` composite, the `G2` generator and the pairing check
`verify(A, B, C, D) → bool`. -/
structure BackendM (F G H : Type) where
  isValidG1 : G → Bool
  g1ToBytes : G → List Nat
  frToBytes : F → List Nat
  hashToField : List Nat → F
  g2Generator : H
  pairingVerify : G → H → G → H → Bool

end Backend

instance fieldInhabited {F : Type} [Field F] : Inhabited F := ⟨0⟩

instance groupInhabited {G : Type} [AddCommGroup G] : Inhabited G := ⟨0⟩

section SetRange

variable {α : Type}

/-- Helper rendering an in-place write loop `for t in 0..c { l[s + t] = v t }`
(each iteration writes one index, indices strictly increasing). -/
def setRange (l : List α) (s c : Nat) (v : Nat → α) : List α :=
  (List.range c).foldl (fun l t => l.set (s + t) (v t)) l

theorem setRange_succ (l : List α) (s c : Nat) (v : Nat → α) :
    setRange l s (c + 1) v = (setRange l s c v).set (s + c) (v c) := by
  simp [setRange, List.range_succ]

@[simp] theorem length_setRange (l : List α) (s c : Nat) (v : Nat → α) :
    (setRange l s c v).length = l.length := by
  induction c with
  | zero => rfl
  | succ c ih => rw [setRange_succ, List.length_set, ih]

theorem getD_setRange (l : List α) (s c : Nat) (v : Nat → α) (i : Nat) (d : α)
    (hi : i < l.length) :
    (setRange l s c v).getD i d =
      if s ≤ i ∧ i < s + c then v (i - s) else l.getD i d := by
  induction c with
  | zero =>
    rw [if_neg (by omega)]
    rfl
  | succ c ih =>
    rw [setRange_succ, List.getD_eq_getElem?_getD, List.getElem?_set]
    by_cases h : s + c = i
    · subst h
      rw [if_pos rfl, if_pos (by rw [length_setRange]; omega), if_pos (by omega)]
      simp
    · rw [if_neg h, ← List.getD_eq_getElem?_getD, ih]
      by_cases h1 : s ≤ i ∧ i < s + c
      · rw [if_pos h1, if_pos (by omega)]
      · rw [if_neg h1, if_neg (by omega)]

end SetRange

section Toeplitz

variable {F : Type} [Field F]

/-- `toeplitz_coeffs_stride(out, input, n, offset, stride)` of `das.rs`:
writes the Toeplitz coefficient vector into the caller buffer `out`.
The source's two `while` loops are rendered with `setRange`:
the first runs for `i = 1` while `i ≤ k + 1 && i < k2`, i.e. over
`i ∈ [1, min (k+1) (k2-1)]`; the second runs for `i = k + 2` while `i < k2`
with `j` starting at `2*stride - offset - 1` and advancing by `stride`.
(Rust's `usize` subtractions would underflow-panic where the Nat
subtractions here truncate; all theorem hypotheses keep them in range.) -/
def toeplitz_coeffs_stride (out input : List F) (n offset stride : Nat) :
    Except Err (List F) :=
  if stride = 0 then .error .strideZero else
  let k := n / stride
  let k2 := k * 2
  let out1 := out.set 0 (input.getD (n - 1 - offset) 0)
  let out2 := setRange out1 1 (min (k + 1) (k2 - 1)) (fun _ => 0)
  let out3 := setRange out2 (k + 2) (k2 - (k + 2))
    (fun t => input.getD (2 * stride - offset - 1 + t * stride) 0)
  .ok out3

theorem length_toeplitz_coeffs_stride (out input : List F) (n offset stride : Nat)
    (res : List F) (h : toeplitz_coeffs_stride out input n offset stride = .ok res) :
    res.length = out.length := by
  by_cases hs : stride = 0
  · simp [toeplitz_coeffs_stride, hs] at h
  · simp only [toeplitz_coeffs_stride, if_neg hs, Except.ok.injEq] at h
    subst h
    simp

/-- C7: For every polynomial `poly` of length `n`, offset `ℓ ∈ [0, stride)` and
stride with `k = n/stride`, `toeplitz_coeffs_stride` writes an output of length
`2k` with position `0` equal to `poly[n−1−ℓ]`, positions `1` through `k+1`
(those below `2k`) equal to zero, and position `i` for `i ∈ [k+2, 2k)` equal to
`poly[2·stride − ℓ − 1 + (i−(k+2))·stride]`. -/
theorem toeplitz_coeffs_stride_layout (out input : List F) (n offset stride : Nat)
    (hs : 0 < stride) (ho : offset < stride) (hk : 0 < n / stride)
    (hout : out.length = (n / stride) * 2) :
    ∃ res, toeplitz_coeffs_stride out input n offset stride = .ok res ∧
      res.length = (n / stride) * 2 ∧
      res.getD 0 0 = input.getD (n - 1 - offset) 0 ∧
      (∀ i, 1 ≤ i → i ≤ n / stride + 1 → i < (n / stride) * 2 → res.getD i 0 = 0) ∧
      (∀ i, n / stride + 2 ≤ i → i < (n / stride) * 2 →
        res.getD i 0 =
          input.getD (2 * stride - offset - 1 + (i - (n / stride + 2)) * stride) 0) := by
  have hns : stride ≠ 0 := by omega
  simp only [toeplitz_coeffs_stride, if_neg hns]
  refine ⟨_, rfl, by simp [hout], ?_, ?_, ?_⟩
  · rw [getD_setRange _ _ _ _ _ _ (by simp [hout]; omega), if_neg (by omega),
      getD_setRange _ _ _ _ _ _ (by simp [hout]; omega), if_neg (by omega),
      List.getD_eq_getElem?_getD, List.getElem?_set, if_pos rfl,
      if_pos (by rw [hout]; omega)]
    simp
  · intro i h1 h2 h3
    rw [getD_setRange _ _ _ _ _ _ (by simp [hout]; omega), if_neg (by omega),
      getD_setRange _ _ _ _ _ _ (by simp [hout]; omega), if_pos (by omega)]
  · intro i h1 h2
    rw [getD_setRange _ _ _ _ _ _ (by simp [hout]; omega), if_pos (by omega)]

end Toeplitz

section WitnessField

/-- Inverse on the 17-element witness field: `a⁻¹ = a^15` (Fermat). -/
instance : Inv (Fin 17) := ⟨fun a => a ^ 15⟩

/-- A small computable field used to instantiate the generic embedding in the
concrete witnesses and counterexamples (the BLS12-381 scalar field itself is
far too large for kernel evaluation; every claim settled here is generic in
the field). -/
instance : Field (Fin 17) :=
  { (inferInstance : CommRing (Fin 17)) with
    inv := fun a => a ^ 15
    div := fun a b => a * b ^ 15
    div_eq_mul_inv := fun _ _ => rfl
    exists_pair_ne := ⟨0, 1, by decide⟩
    mul_inv_cancel := by decide
    inv_zero := by decide
    nnqsmul := _
    qsmul := _ }

end WitnessField

/-- The `FFTSettings` model used by the concrete witnesses: `max_width = 2`
with `ω = 16` of order 2 in the 17-element field (`roots_of_unity[i] = 16^i`). -/
def wFS : FFTSettingsM (Fin 17) := ⟨2, fun i => 16 ^ i⟩

/-- Witness for C7 at `n = 8`, `stride = 2`, `offset = 1` over the 17-element
field: `k = 4`, output length 8. -/
theorem toeplitz_coeffs_stride_layout_witness :
    0 < 2 ∧ 1 < 2 ∧ 0 < 8 / 2 ∧ (List.replicate 8 (0 : Fin 17)).length = (8 / 2) * 2 ∧
    (∃ res, toeplitz_coeffs_stride (List.replicate 8 (0 : Fin 17))
        [1, 2, 3, 4, 5, 6, 7, 8] 8 1 2 = .ok res ∧
      res.length = (8 / 2) * 2 ∧
      res.getD 0 0 = List.getD [1, 2, 3, 4, 5, 6, 7, 8] (8 - 1 - 1) 0 ∧
      (∀ i, 1 ≤ i → i ≤ 8 / 2 + 1 → i < (8 / 2) * 2 → res.getD i 0 = 0) ∧
      (∀ i, 8 / 2 + 2 ≤ i → i < (8 / 2) * 2 →
        res.getD i 0 =
          List.getD [1, 2, 3, 4, 5, 6, 7, 8] (2 * 2 - 1 - 1 + (i - (8 / 2 + 2)) * 2) 0)) :=
  ⟨by decide, by decide, by decide, by decide,
    toeplitz_coeffs_stride_layout _ _ 8 1 2 (by decide) (by decide) (by decide) (by decide)⟩

section GetDHelpers

variable {α : Type}

theorem getD_set_ne (l : List α) (j i : Nat) (a d : α) (h : j ≠ i) :
    (l.set j a).getD i d = l.getD i d := by
  rw [List.getD_eq_getElem?_getD, List.getElem?_set_ne h, ← List.getD_eq_getElem?_getD]

theorem getD_set_self (l : List α) (j : Nat) (a d : α) (h : j < l.length) :
    (l.set j a).getD j d = a := by
  rw [List.getD_eq_getElem?_getD, List.getElem?_set_self h]
  rfl

theorem getD_eq_default (l : List α) (n : Nat) (d : α) (h : l.length ≤ n) :
    l.getD n d = d := by
  rw [List.getD_eq_getElem?_getD, List.getElem?_eq_none (by omega)]
  rfl

end GetDHelpers

section Vanishing

variable {F : Type} [Field F]

/-- The descending inner loop of `compute_vanishing_polynomial_from_roots`:
`for j in (1..i).rev() { poly[j] = poly[j].mul(&neg_root).add(&poly[j-1]) }`,
invoked with first argument `i - 1` (the loop visits `i-1, i-2, …, 1`; every
read of `poly[j-1]` sees the not-yet-updated value because the walk is
descending, which the recursion reproduces). -/
def vanishing_inner (neg : F) : Nat → List F → List F
  | 0, p => p
  | j + 1, p => vanishing_inner neg j (p.set (j + 1) (p.getD (j + 1) 0 * neg + p.getD j 0))

@[simp] theorem length_vanishing_inner (neg : F) (m : Nat) (p : List F) :
    (vanishing_inner neg m p).length = p.length := by
  induction m generalizing p with
  | zero => rfl
  | succ m ih => rw [vanishing_inner, ih, List.length_set]

theorem getD_vanishing_inner (neg : F) (m : Nat) (p : List F) (i : Nat)
    (him : m < p.length) :
    (vanishing_inner neg m p).getD i 0 =
      if 1 ≤ i ∧ i ≤ m then p.getD i 0 * neg + p.getD (i - 1) 0 else p.getD i 0 := by
  induction m generalizing p with
  | zero => rw [if_neg (by omega)]; rfl
  | succ m ih =>
    rw [vanishing_inner, ih _ (by rw [List.length_set]; omega)]
    by_cases h1 : 1 ≤ i ∧ i ≤ m
    · rw [if_pos h1, if_pos (by omega), getD_set_ne _ _ _ _ _ (by omega),
        getD_set_ne _ _ _ _ _ (by omega)]
    · by_cases h2 : i = m + 1
      · subst h2
        rw [if_neg h1, if_pos (by omega), getD_set_self _ _ _ _ him]
        simp
      · rw [if_neg h1, if_neg (by omega), getD_set_ne _ _ _ _ _ (by omega)]

/-- One iteration of the outer loop of `compute_vanishing_polynomial_from_roots`
(index `i` of the `for i in 1..roots.len()` loop):
push `neg_root + poly[i-1]`, run the descending inner loop, then
`poly[0] = poly[0] * neg_root`. -/
def vanishing_body (roots : List F) (p : List F) (i : Nat) : List F :=
  let neg := -(roots.getD i 0)
  let p1 := p ++ [neg + p.getD (i - 1) 0]
  let p2 := vanishing_inner neg (i - 1) p1
  p2.set 0 (p2.getD 0 0 * neg)

@[simp] theorem length_vanishing_body (roots p : List F) (i : Nat) :
    (vanishing_body roots p i).length = p.length + 1 := by
  simp [vanishing_body]

theorem getD_vanishing_body (roots p : List F) (i : Nat)
    (hp : p.length = i) (hi : 1 ≤ i) (idx : Nat) :
    (vanishing_body roots p i).getD idx 0 =
      if idx = 0 then p.getD 0 0 * -(roots.getD i 0)
      else if idx ≤ i - 1 then p.getD idx 0 * -(roots.getD i 0) + p.getD (idx - 1) 0
      else if idx = i then -(roots.getD i 0) + p.getD (i - 1) 0
      else 0 := by
  have hlen1 : (p ++ [-(roots.getD i 0) + p.getD (i - 1) 0]).length = i + 1 := by
    simp [hp]
  by_cases h0 : idx = 0
  · subst h0
    rw [if_pos rfl]
    unfold vanishing_body
    rw [getD_set_self _ _ _ _ (by simp [hp]),
      getD_vanishing_inner _ _ _ _ (by rw [hlen1]; omega), if_neg (by omega),
      List.getD_append _ _ _ _ (by omega)]
  · rw [if_neg h0]
    unfold vanishing_body
    rw [getD_set_ne _ _ _ _ _ (by omega),
      getD_vanishing_inner _ _ _ _ (by rw [hlen1]; omega)]
    by_cases h1 : idx ≤ i - 1
    · rw [if_pos (by omega), if_pos h1,
        List.getD_append _ _ _ _ (by omega), List.getD_append _ _ _ _ (by omega)]
    · rw [if_neg (by omega), if_neg h1]
      by_cases h2 : idx = i
      · subst h2
        rw [if_pos rfl, List.getD_append_right _ _ _ _ (by omega), hp]
        simp
      · rw [if_neg h2, List.getD_append_right _ _ _ _ (by omega)]
        exact getD_eq_default _ _ _ (by simp only [List.length_singleton]; omega)

/-- `compute_vanishing_polynomial_from_roots` of `das.rs`: incremental
construction of the coefficients of `∏ (x − rᵢ)`, leading `1` pushed last. -/
def compute_vanishing_polynomial_from_roots (roots : List F) : Except Err (List F) :=
  if roots.isEmpty then .error .rootsEmpty else
  let poly := (List.range' 1 (roots.length - 1)).foldl (vanishing_body roots)
    [-(roots.getD 0 0)]
  .ok (poly ++ [1])

/-- The polynomial whose coefficient list is `l` (`l[i]` the coefficient of `X^i`). -/
noncomputable def toPoly (l : List F) : Polynomial F :=
  l.foldr (fun c acc => Polynomial.C c + Polynomial.X * acc) 0

/-- Horner evaluation of a coefficient list at `x`. -/
def evalList (x : F) (l : List F) : F := l.foldr (fun c acc => c + x * acc) 0

theorem coeff_toPoly (l : List F) (n : Nat) : (toPoly l).coeff n = l.getD n 0 := by
  induction l generalizing n with
  | nil => simp [toPoly]
  | cons c t ih =>
    cases n with
    | zero => simp [toPoly, Polynomial.coeff_add, Polynomial.coeff_C]
    | succ m =>
      simp only [toPoly, List.foldr_cons, Polynomial.coeff_add, Polynomial.coeff_C,
        Polynomial.coeff_X_mul]
      rw [if_neg (by omega), zero_add]
      exact ih m

theorem evalList_toPoly (x : F) (l : List F) : (toPoly l).eval x = evalList x l := by
  induction l with
  | nil => simp [toPoly, evalList]
  | cons c t ih =>
    show Polynomial.eval x (Polynomial.C c + Polynomial.X * toPoly t) = c + x * evalList x t
    rw [Polynomial.eval_add, Polynomial.eval_C, Polynomial.eval_mul, Polynomial.eval_X, ih]

theorem toPoly_append_one (l : List F) :
    toPoly (l ++ [1]) = toPoly l + Polynomial.X ^ l.length := by
  apply Polynomial.ext
  intro n
  rw [coeff_toPoly, Polynomial.coeff_add, coeff_toPoly, Polynomial.coeff_X_pow]
  by_cases h : n < l.length
  · rw [List.getD_append _ _ _ _ h, if_neg (by omega), add_zero]
  · rw [List.getD_append_right _ _ _ _ (by omega), getD_eq_default l n 0 (by omega)]
    by_cases h2 : n = l.length
    · subst h2
      rw [if_pos rfl, Nat.sub_self]
      simp
    · rw [if_neg h2,
        getD_eq_default _ _ _ (by simp only [List.length_singleton]; omega), add_zero]

theorem toPoly_vanishing_body (roots p : List F) (i : Nat)
    (hp : p.length = i) (hi : 1 ≤ i) :
    toPoly (vanishing_body roots p i) + Polynomial.X ^ (i + 1) =
      (Polynomial.X + Polynomial.C (-(roots.getD i 0))) *
        (toPoly p + Polynomial.X ^ i) := by
  apply Polynomial.ext
  intro n
  rw [Polynomial.coeff_add, coeff_toPoly, getD_vanishing_body _ _ _ hp hi,
    Polynomial.coeff_X_pow, add_mul, Polynomial.coeff_add, Polynomial.coeff_C_mul,
    Polynomial.coeff_add, coeff_toPoly, Polynomial.coeff_X_pow]
  cases n with
  | zero =>
    rw [if_pos rfl, if_neg (by omega), if_neg (by omega)]
    have : (Polynomial.X * (toPoly p + Polynomial.X ^ i)).coeff 0 = 0 := by
      simp
    rw [this]
    ring
  | succ m =>
    rw [Polynomial.coeff_X_mul, Polynomial.coeff_add, coeff_toPoly,
      Polynomial.coeff_X_pow, if_neg (by omega)]
    by_cases hA : m + 1 ≤ i - 1
    · rw [if_pos hA, if_neg (by omega), if_neg (by omega), if_neg (by omega)]
      simp only [Nat.add_sub_cancel]
      ring
    · by_cases hB : m + 1 = i
      · subst hB
        rw [if_neg (by omega), if_pos rfl, if_neg (by omega), if_neg (by omega),
          if_pos rfl, getD_eq_default p (m + 1) 0 (by omega)]
        simp only [Nat.add_sub_cancel]
        ring
      · by_cases hC : m + 1 = i + 1
        · have hmi : m = i := by omega
          subst hmi
          rw [if_neg (by omega), if_neg (by omega), if_pos rfl, if_pos rfl,
            if_neg (by omega), getD_eq_default p (m + 1) 0 (by omega),
            getD_eq_default p m 0 (by omega)]
          ring
        · rw [if_neg hA, if_neg hB, if_neg hC, if_neg (by omega), if_neg (by omega),
            getD_eq_default p (m + 1) 0 (by omega), getD_eq_default p m 0 (by omega)]
          ring

/-- The monic product `∏_(t < m) (X − roots[t])`. -/
noncomputable def rootsProd (roots : List F) (m : Nat) : Polynomial F :=
  ((List.range m).map fun t => Polynomial.X - Polynomial.C (roots.getD t 0)).prod

theorem rootsProd_succ (roots : List F) (m : Nat) :
    rootsProd roots (m + 1) =
      rootsProd roots m * (Polynomial.X - Polynomial.C (roots.getD m 0)) := by
  rw [rootsProd, rootsProd, List.range_succ, List.map_append, List.prod_append]
  simp

theorem vanishing_fold_spec (roots : List F) (j : Nat) :
    ((List.range' 1 j).foldl (vanishing_body roots) [-(roots.getD 0 0)]).length = j + 1 ∧
    toPoly ((List.range' 1 j).foldl (vanishing_body roots) [-(roots.getD 0 0)]) +
        Polynomial.X ^ (j + 1) = rootsProd roots (j + 1) := by
  induction j with
  | zero =>
    constructor
    · rfl
    · show toPoly [-(roots.getD 0 0)] + Polynomial.X ^ 1 = _
      rw [rootsProd_succ]
      show Polynomial.C (-(roots.getD 0 0)) + Polynomial.X * 0 + Polynomial.X ^ 1 =
        rootsProd roots 0 * (Polynomial.X - Polynomial.C (roots.getD 0 0))
      have h0 : rootsProd roots 0 = 1 := by
        rw [rootsProd]
        rfl
      rw [h0, Polynomial.C_neg]
      ring
  | succ j ih =>
    rw [List.range'_concat, List.foldl_append]
    simp only [List.foldl_cons, List.foldl_nil]
    have h1j : 1 + 1 * j = j + 1 := by omega
    rw [h1j]
    constructor
    · rw [length_vanishing_body, ih.1]
    · rw [toPoly_vanishing_body _ _ _ ih.1 (by omega), rootsProd_succ, ih.2,
        Polynomial.C_neg]
      ring

/-- C5: For every non-empty list of roots `r₀ … r_(m−1)`,
`compute_vanishing_polynomial_from_roots` returns a coefficient vector of
length `m+1` whose leading coefficient is `1` and whose polynomial evaluates
to `0` at every supplied root `rᵢ`; for the empty root list it returns an
error. -/
theorem compute_vanishing_polynomial_from_roots_spec (roots : List F) :
    (roots = [] →
      compute_vanishing_polynomial_from_roots roots = .error .rootsEmpty) ∧
    (roots ≠ [] → ∃ res,
      compute_vanishing_polynomial_from_roots roots = .ok res ∧
      res.length = roots.length + 1 ∧
      res.getD roots.length 0 = 1 ∧
      ∀ r ∈ roots, evalList r res = 0) := by
  constructor
  · intro h
    subst h
    rfl
  · intro hne
    have hem : roots.isEmpty = false := by
      cases roots with
      | nil => exact absurd rfl hne
      | cons a t => rfl
    simp only [compute_vanishing_polynomial_from_roots, hem, Bool.false_eq_true,
      if_false]
    have hpos : 1 ≤ roots.length := by
      cases roots with
      | nil => exact absurd rfl hne
      | cons a t => simp
    have hl := (vanishing_fold_spec roots (roots.length - 1)).1
    have hp := (vanishing_fold_spec roots (roots.length - 1)).2
    refine ⟨_, rfl, ?_, ?_, ?_⟩
    · rw [List.length_append, hl]
      simp only [List.length_singleton]
      omega
    · rw [List.getD_append_right _ _ _ _ (by rw [hl]; omega), hl]
      have h0 : roots.length - (roots.length - 1 + 1) = 0 := by omega
      rw [h0]
      rfl
    · intro r hr
      have hlen : roots.length - 1 + 1 = roots.length := by omega
      rw [← evalList_toPoly, toPoly_append_one, hl, hp, hlen]
      obtain ⟨t, ht, hteq⟩ := List.getElem_of_mem hr
      rw [rootsProd, Polynomial.eval_list_prod]
      apply List.prod_eq_zero
      rw [List.map_map]
      apply List.mem_map.mpr
      refine ⟨t, List.mem_range.mpr ht, ?_⟩
      have hgd : roots.getD t 0 = r := by
        rw [List.getD_eq_getElem?_getD, List.getElem?_eq_getElem ht, hteq]
        rfl
      show Polynomial.eval r (Polynomial.X - Polynomial.C (roots.getD t 0)) = 0
      rw [Polynomial.eval_sub, Polynomial.eval_X, Polynomial.eval_C, hgd, sub_self]

/-- Witness for C5: roots `[2, 5, 11]` over the 17-element field. -/
theorem compute_vanishing_polynomial_from_roots_spec_witness :
    ([2, 5, 11] : List (Fin 17)) ≠ [] ∧ (∃ res,
      compute_vanishing_polynomial_from_roots ([2, 5, 11] : List (Fin 17)) = .ok res ∧
      res.length = ([2, 5, 11] : List (Fin 17)).length + 1 ∧
      res.getD ([2, 5, 11] : List (Fin 17)).length 0 = 1 ∧
      ∀ r ∈ ([2, 5, 11] : List (Fin 17)), evalList r res = 0) :=
  ⟨by decide,
    (compute_vanishing_polynomial_from_roots_spec ([2, 5, 11] : List (Fin 17))).2
      (by decide)⟩

end Vanishing

section Coset

variable {F : Type} [Field F] [DecidableEq F]

/-- `shift_poly(poly, shift_factor)` of `das.rs`: the source walks the list
with a running `factor_power` (which equals `shift_factor^i` at index `i`),
skipping index 0, so `poly[i]` becomes `poly[i] * shift_factor^i`. -/
def shift_poly (poly : List F) (shift_factor : F) : List F :=
  poly.mapIdx fun i c => if i = 0 then c else c * shift_factor ^ i

@[simp] theorem length_shift_poly (poly : List F) (f : F) :
    (shift_poly poly f).length = poly.length := by
  simp [shift_poly]

/-- `coset_fft(input)` of `das.rs`: fails on empty input, otherwise
`FFT(shift_poly(input, 7))` (the source's `TODO` constant 7). -/
def coset_fft (fs : FFTSettingsM F) (input : List F) : Except Err (List F) :=
  if input.isEmpty then .error .invalidInputLength
  else fftFr fs (shift_poly input (7 : F)) false

/-- `coset_ifft(input)` of `das.rs`: fails on empty input, otherwise
`shift_poly(IFFT(input), 1/7)` with `1/7` computed through `Fr::div`. -/
def coset_ifft (fs : FFTSettingsM F) (input : List F) : Except Err (List F) :=
  if input.isEmpty then .error .invalidInputLength
  else
    (fftFr fs input true).bind fun output =>
      (frDiv (1 : F) (7 : F)).map fun sevenInv => shift_poly output sevenInv

theorem shift_poly_shift_poly (a : List F) (f g : F) (hfg : f * g = 1) :
    shift_poly (shift_poly a f) g = a := by
  apply List.ext_getElem (by simp)
  intro i h1 h2
  simp only [shift_poly, List.getElem_mapIdx]
  by_cases h : i = 0
  · simp [h]
  · rw [if_neg h, if_neg h, mul_assoc, ← mul_pow, hfg, one_pow, mul_one]

/-- C6: For every non-empty input vector `a` of valid power-of-two length,
`coset_ifft(coset_fft(a)) = a`, under the hypothesis that the backend FFT
satisfies `IFFT(FFT(x)) = x`; both `coset_fft` and `coset_ifft` fail on empty
input. -/
theorem coset_fft_roundtrip (fs : FFTSettingsM F) (a : List F)
    (hne : a ≠ []) (hpow : isPow2 a.length = true) (hw : a.length ≤ fs.maxWidth)
    (h7 : (7 : F) ≠ 0)
    (hrt : ∀ v : List F, v.length = a.length →
      (fftFr fs v false).bind (fun w => fftFr fs w true) = .ok v) :
    (coset_fft fs a).bind (fun y => coset_ifft fs y) = .ok a ∧
    coset_fft fs ([] : List F) = .error .invalidInputLength ∧
    coset_ifft fs ([] : List F) = .error .invalidInputLength := by
  refine ⟨?_, rfl, rfl⟩
  have hane : a.isEmpty = false := by
    cases a with
    | nil => exact absurd rfl hne
    | cons x t => rfl
  have hs : (shift_poly a (7 : F)).length = a.length := length_shift_poly a 7
  have h1 := hrt (shift_poly a (7 : F)) hs
  cases hy : fftFr fs (shift_poly a (7 : F)) false with
  | error e =>
    rw [hy] at h1
    simp [Except.bind] at h1
  | ok y =>
    rw [hy] at h1
    simp only [Except.bind] at h1
    have hylen : y.length = a.length := by
      revert hy
      unfold fftFr
      split
      · intro hy
        split at hy <;>
          (injection hy with hy2; rw [← hy2]; simp [dft, hs])
      · intro hy
        exact absurd hy (by simp)
    have hyne : y.isEmpty = false := by
      cases y with
      | nil =>
        exfalso
        apply hne
        cases a with
        | nil => rfl
        | cons x t => simp at hylen
      | cons x t => rfl
    rw [coset_fft, if_neg (by rw [hane]; exact Bool.false_ne_true), hy]
    show coset_ifft fs y = .ok a
    rw [coset_ifft, if_neg (by rw [hyne]; exact Bool.false_ne_true), h1]
    show (frDiv (1 : F) (7 : F)).map
      (fun sevenInv => shift_poly (shift_poly a 7) sevenInv) = .ok a
    rw [frDiv, if_neg h7]
    show Except.ok (shift_poly (shift_poly a 7) (1 * (7 : F)⁻¹)) = .ok a
    rw [shift_poly_shift_poly a 7 _ (by rw [one_mul, mul_inv_cancel₀ h7])]

end Coset

section ExceptHelpers

@[simp] theorem except_bind_ok {ε α β : Type} (a : α) (f : α → Except ε β) :
    Except.bind (Except.ok a) f = f a := rfl

@[simp] theorem except_bind_error {ε α β : Type} (e : ε) (f : α → Except ε β) :
    Except.bind (Except.error e) f = Except.error e := rfl

@[simp] theorem except_monadbind_ok {ε α β : Type} (a : α) (f : α → Except ε β) :
    Bind.bind (Except.ok a) f = f a := rfl

@[simp] theorem except_monadbind_error {ε α β : Type} (e : ε) (f : α → Except ε β) :
    Bind.bind (Except.error e) f = Except.error e := rfl

@[simp] theorem except_map_error {ε α β : Type} (e : ε) (g : α → β) :
    Except.map g (Except.error e : Except ε α) = Except.error e := rfl

theorem mapM_ok {α β : Type} (f : α → Except Err β) (P : β → Prop) (l : List α)
    (h : ∀ a ∈ l, ∃ b, f a = .ok b ∧ P b) :
    ∃ bs, l.mapM f = .ok bs ∧ bs.length = l.length ∧ ∀ b ∈ bs, P b := by
  induction l with
  | nil => exact ⟨[], rfl, rfl, by simp⟩
  | cons a t ih =>
    obtain ⟨b, hb, hPb⟩ := h a (List.mem_cons_self a t)
    obtain ⟨bs, hbs, hlen, hP⟩ := ih fun x hx => h x (List.mem_cons_of_mem _ hx)
    refine ⟨b :: bs, ?_, by simp [hlen], ?_⟩
    · rw [List.mapM_cons, hb, hbs]
      rfl
    · intro x hx
      rcases List.mem_cons.mp hx with hx | hx
      · rw [hx]
        exact hPb
      · exact hP x hx

end ExceptHelpers

section FFTLemmas

variable {F : Type} [Field F] [DecidableEq F]
variable {G : Type} [AddCommGroup G] [Module F G] [DecidableEq G]

@[simp] theorem length_dft (ω : F) (a : List F) : (dft ω a).length = a.length := by
  simp [dft]

@[simp] theorem length_dftG1 (ω : F) (a : List G) :
    (dftG1 (F := F) ω a).length = a.length := by
  simp [dftG1]

theorem fftFr_eq_ok (fs : FFTSettingsM F) (a : List F) (inv : Bool)
    (h1 : isPow2 a.length = true) (h2 : a.length ≤ fs.maxWidth) :
    ∃ b, fftFr fs a inv = .ok b ∧ b.length = a.length := by
  unfold fftFr
  rw [if_pos ⟨h1, h2⟩]
  cases inv
  · exact ⟨_, rfl, by simp⟩
  · exact ⟨_, rfl, by simp⟩

theorem fftG1_eq_ok (fs : FFTSettingsM F) (a : List G) (inv : Bool)
    (h1 : isPow2 a.length = true) (h2 : a.length ≤ fs.maxWidth) :
    ∃ b, fftG1 (F := F) fs a inv = .ok b ∧ b.length = a.length := by
  unfold fftG1
  rw [if_pos ⟨h1, h2⟩]
  cases inv
  · exact ⟨_, rfl, by simp⟩
  · exact ⟨_, rfl, by simp⟩

theorem fftFr_ok_length (fs : FFTSettingsM F) (a b : List F) (inv : Bool)
    (h : fftFr fs a inv = .ok b) : b.length = a.length := by
  revert h
  unfold fftFr
  split
  · cases inv <;> (intro h; injection h with h; rw [← h]; simp)
  · intro h
    exact absurd h (by simp)

theorem fftG1_ok_length (fs : FFTSettingsM F) (a b : List G) (inv : Bool)
    (h : fftG1 (F := F) fs a inv = .ok b) : b.length = a.length := by
  revert h
  unfold fftG1
  split
  · cases inv <;> (intro h; injection h with h; rw [← h]; simp)
  · intro h
    exact absurd h (by simp)

theorem fftFr_error (fs : FFTSettingsM F) (a : List F) (inv : Bool) (e : Err)
    (h : fftFr fs a inv = .error e) : e = .fftLength := by
  revert h
  unfold fftFr
  split
  · cases inv <;> (intro h; exact absurd h (by simp))
  · intro h
    injection h with h
    rw [h]

theorem fftG1_error (fs : FFTSettingsM F) (a : List G) (inv : Bool) (e : Err)
    (h : fftG1 (F := F) fs a inv = .error e) : e = .fftLength := by
  revert h
  unfold fftG1
  split
  · cases inv <;> (intro h; exact absurd h (by simp))
  · intro h
    injection h with h
    rw [h]

end FFTLemmas

section FK20

variable {F : Type} [Field F] [DecidableEq F]
variable {G H : Type} [AddCommGroup G] [Module F G] [DecidableEq G]

/-- `compute_fk20_proofs(poly, n)` of `das.rs`.  The per-column loop fills the
reused `toeplitz_coeffs` buffer (`vec![default; k2]`, fully overwritten on
every iteration for `k ≥ 1`), FFTs it, and scatters it into the column-major
`coeffs` matrix; row `j` of that matrix is `[fft_0[j], …, fft_(L-1)[j]]`,
rendered here by reading entry `j` of every column.  Then each
`h_ext_fft[i]` is a `g1_lincomb` of the `i`-th precomputed `x_ext_fft`
column, `h = IFFT_G1(h_ext_fft)` has its entries `k ≤ j < k2` zeroed
(`iter_mut().take(k2).skip(k)`), and the forward G1-FFT of the result is
returned.  (With `L > k` the source would index row `j` out of bounds and
panic; the embedding's total indexing returns the padding zero instead.) -/
def compute_fk20_proofs (FIELD_ELEMENTS_PER_CELL : Nat) (fs : FFTSettingsM F)
    (ks : KZGSettingsM F G H) (poly : List F) (n : Nat) : Except Err (List G) :=
  let k := n / FIELD_ELEMENTS_PER_CELL
  let k2 := k * 2
  ((List.range FIELD_ELEMENTS_PER_CELL).mapM fun i =>
      (toeplitz_coeffs_stride (List.replicate k2 (0 : F)) poly n i
          FIELD_ELEMENTS_PER_CELL).bind
        fun t => fftFr fs t false).bind fun cols =>
  let h_ext_fft : List G := (List.range k2).map fun j =>
    g1_lincomb (ks.xExtFftColumns j) (cols.map fun c => c.getD j 0)
      FIELD_ELEMENTS_PER_CELL
  (fftG1 (F := F) fs h_ext_fft true).bind fun h =>
  let hz := h.mapIdx fun j x => if k ≤ j ∧ j < k2 then (0 : G) else x
  fftG1 (F := F) fs hz false

/-- C1 (amended): for a polynomial in monomial form, `compute_fk20_proofs`
returns `2k` group elements (`k = n / FIELD_ELEMENTS_PER_CELL`); the zeroing
applies to the intermediate `h` before the final forward G1-FFT, so the
inverse G1-FFT of the returned vector has its latter `k` entries equal to the
G1 identity (only the first `k` coefficients carry proof data), while the
returned vector's latter `k` entries themselves are in general not the
identity. -/
theorem compute_fk20_proofs_shape (FEPC : Nat) (fs : FFTSettingsM F)
    (ks : KZGSettingsM F G H) (poly : List F) (n : Nat)
    (hFEPC : 0 < FEPC)
    (hpow : isPow2 (n / FEPC * 2) = true) (hw : n / FEPC * 2 ≤ fs.maxWidth)
    (hrt : ∀ v : List G, v.length = n / FEPC * 2 →
      (fftG1 (F := F) fs v false).bind (fun w => fftG1 (F := F) fs w true) = .ok v) :
    ∃ out, compute_fk20_proofs FEPC fs ks poly n = .ok out ∧
      out.length = n / FEPC * 2 ∧
      ∃ hcoef, fftG1 (F := F) fs out true = .ok hcoef ∧
        ∀ i, n / FEPC ≤ i → i < n / FEPC * 2 → hcoef.getD i 0 = (0 : G) := by
  have hne : FEPC ≠ 0 := by omega
  have h0 : ∀ i ∈ List.range FEPC, ∃ c,
      ((toeplitz_coeffs_stride (List.replicate (n / FEPC * 2) (0 : F)) poly n i
          FEPC).bind fun t => fftFr fs t false) = .ok c ∧
        c.length = n / FEPC * 2 := by
    intro i _
    obtain ⟨t, ht⟩ : ∃ t, toeplitz_coeffs_stride
        (List.replicate (n / FEPC * 2) (0 : F)) poly n i FEPC = .ok t := by
      simp only [toeplitz_coeffs_stride, if_neg hne]
      exact ⟨_, rfl⟩
    have htlen : t.length = n / FEPC * 2 := by
      have := length_toeplitz_coeffs_stride _ _ _ _ _ _ ht
      simpa using this
    obtain ⟨c, hc, hclen⟩ := fftFr_eq_ok fs t false (by rw [htlen]; exact hpow)
      (by rw [htlen]; exact hw)
    refine ⟨c, ?_, by rw [hclen, htlen]⟩
    rw [ht, except_bind_ok]
    exact hc
  obtain ⟨cols, hcols, hcollen, hcolP⟩ := mapM_ok _ _ _ h0
  have hextlen : ((List.range (n / FEPC * 2)).map fun j =>
      g1_lincomb (ks.xExtFftColumns j) (cols.map fun c => c.getD j 0)
        FEPC : List G).length = n / FEPC * 2 := by
    simp
  obtain ⟨hh, hhok, hhlen⟩ := fftG1_eq_ok fs _ true
    (by rw [hextlen]; exact hpow) (by rw [hextlen]; exact hw)
  rw [hextlen] at hhlen
  have hzlen : (hh.mapIdx fun j x =>
      if n / FEPC ≤ j ∧ j < n / FEPC * 2 then (0 : G) else x).length
        = n / FEPC * 2 := by
    rw [List.length_mapIdx, hhlen]
  have hrtz := hrt _ hzlen
  cases hfz : fftG1 (F := F) fs (hh.mapIdx fun j x =>
      if n / FEPC ≤ j ∧ j < n / FEPC * 2 then (0 : G) else x) false with
  | error e =>
    rw [hfz] at hrtz
    simp at hrtz
  | ok out =>
    rw [hfz, except_bind_ok] at hrtz
    refine ⟨out, ?_, ?_, _, hrtz, ?_⟩
    · simp only [compute_fk20_proofs]
      rw [hcols, except_bind_ok, hhok, except_bind_ok]
      exact hfz
    · rw [fftG1_ok_length _ _ _ _ hfz, hzlen]
    · intro i hik hik2
      have hilt : i < hh.length := by omega
      rw [List.getD_eq_getElem?_getD, List.getElem?_eq_getElem (by simpa using hilt)]
      simp only [List.getElem_mapIdx, Option.getD_some]
      rw [if_pos ⟨hik, hik2⟩]

/-- The KZG settings used by the concrete witnesses: the trusted-setup pieces
are external inputs, instantiated with trivial values over the 17-element
field (`x_ext_fft` column `[1]` for every index). -/
def wKS : KZGSettingsM (Fin 17) (Fin 17) Unit := ⟨wFS, [], [], fun _ => [1]⟩

/-- Counterexample to C1 as stated: at `FIELD_ELEMENTS_PER_CELL = 1`, `n = 1`
(`k = 1`) and polynomial `[1]` over the 17-element field, the returned vector
is `[1, 1]`: its latter `k` entries are not the G1 identity (the identity is
`0`); the zeroing happens before the final forward FFT, not after it. -/
theorem compute_fk20_proofs_tail_not_identity :
    (compute_fk20_proofs 1 wFS wKS [1] 1).map (fun out => out.getD 1 0) =
      .ok (1 : Fin 17) ∧ (1 : Fin 17) ≠ 0 := by
  constructor
  · decide
  · decide

/-- Witness for the amended C1 at the same concrete instance. -/
theorem compute_fk20_proofs_shape_witness :
    (0 < 1 ∧ isPow2 (1 / 1 * 2) = true ∧ 1 / 1 * 2 ≤ wFS.maxWidth) ∧
    (∃ out, compute_fk20_proofs 1 wFS wKS [1] 1 = .ok out ∧
      out.length = 1 / 1 * 2 ∧
      ∃ hcoef, fftG1 (F := Fin 17) wFS out true = .ok hcoef ∧
        ∀ i, 1 / 1 ≤ i → i < 1 / 1 * 2 → hcoef.getD i 0 = (0 : Fin 17)) := by
  have hall : ∀ x y : Fin 17,
      (fftG1 (F := Fin 17) wFS [x, y] false).bind
        (fun w => fftG1 (F := Fin 17) wFS w true) = .ok [x, y] := by
    decide
  have hrt : ∀ v : List (Fin 17), v.length = 1 / 1 * 2 →
      (fftG1 (F := Fin 17) wFS v false).bind
        (fun w => fftG1 (F := Fin 17) wFS w true) = .ok v := by
    intro v hv
    cases v with
    | nil => simp at hv
    | cons x t =>
      cases t with
      | nil => simp at hv
      | cons y t2 =>
        cases t2 with
        | nil => exact hall x y
        | cons z t3 => simp at hv
  exact ⟨⟨by decide, by decide, by decide⟩,
    compute_fk20_proofs_shape 1 wFS wKS [1] 1 (by decide) (by decide) (by decide) hrt⟩

end FK20

section WeightedSum

variable {F : Type} [Field F] [DecidableEq F]
variable {G : Type} [AddCommGroup G] [Module F G] [DecidableEq G]

/-- `compute_weighted_sum_of_commitments` of `das.rs`, the sequential
(`not(feature = "parallel")`) implementation: accumulate
`commitment_weights[commitment_indices[i]] += r_powers[i]` over
`i in 0..r_powers.len()`, then one `g1_lincomb`. -/
def compute_weighted_sum_of_commitments (commitments : List G)
    (commitment_indices : List Nat) (r_powers : List F) : G :=
  let commitment_weights := (List.range r_powers.length).foldl
    (fun cw i => cw.set (commitment_indices.getD i 0)
      (cw.getD (commitment_indices.getD i 0) 0 + r_powers.getD i 0))
    (List.replicate commitments.length (0 : F))
  g1_lincomb commitments commitment_weights commitments.length

/-- Fuel-indexed rendering of rayon's `par_chunks(sz)`: consecutive chunks of
`sz` elements, the last possibly shorter (structural recursion so concrete
witnesses evaluate in the kernel; the fuel `l.length` always suffices). -/
def chunksOfAux {α : Type} (sz : Nat) : Nat → List α → List (List α)
  | 0, _ => []
  | _ + 1, [] => []
  | fuel + 1, a :: l => ((a :: l).take sz) :: chunksOfAux sz fuel ((a :: l).drop sz)

/-- rayon's `par_chunks(sz)`; rayon panics on `sz = 0` (which the callers
reach only for empty input), the model returns no chunks there. -/
def chunksOf {α : Type} (sz : Nat) (l : List α) : List (List α) :=
  if sz = 0 then [] else chunksOfAux sz l.length l

/-- `compute_weighted_sum_of_commitments` of `das.rs`, the parallel
(`feature = "parallel"`) implementation with `numThreads` rayon threads:
`chunk_size = ⌈r_powers.len()/num_threads⌉`, zip the chunked `r_powers` with
the chunked `commitment_indices`, scatter each chunk pair into a fresh local
weight vector, combine the locals index-wise in chunk order
(`for (i, weight) in local_weights.enumerate`, both sides of length
`commitments.len()`), and take the same final `g1_lincomb`. -/
def compute_weighted_sum_of_commitments_par (numThreads : Nat)
    (commitments : List G) (commitment_indices : List Nat) (r_powers : List F) : G :=
  let chunk_size := (r_powers.length + numThreads - 1) / numThreads
  let intermediate := ((chunksOf chunk_size r_powers).zip
      (chunksOf chunk_size commitment_indices)).map fun c =>
    (c.1.zip c.2).foldl
      (fun lw p => lw.set p.2 (lw.getD p.2 0 + p.1))
      (List.replicate commitments.length (0 : F))
  let commitment_weights := intermediate.foldl
    (fun cw lw => List.zipWith (fun c w => c + w) cw lw)
    (List.replicate commitments.length (0 : F))
  g1_lincomb commitments commitment_weights commitments.length

theorem scatterFold_length (ps : List (F × Nat)) (w : List F) :
    (ps.foldl (fun lw p => lw.set p.2 (lw.getD p.2 0 + p.1)) w).length = w.length := by
  induction ps generalizing w with
  | nil => rfl
  | cons p ps ih => rw [List.foldl_cons, ih, List.length_set]

theorem scatterFold_getD (ps : List (F × Nat)) (w : List F) (j : Nat)
    (hj : j < w.length) (hp : ∀ p ∈ ps, p.2 < w.length) :
    (ps.foldl (fun lw p => lw.set p.2 (lw.getD p.2 0 + p.1)) w).getD j 0 =
      w.getD j 0 + ((ps.filter fun p => p.2 == j).map Prod.fst).sum := by
  induction ps generalizing w with
  | nil => simp
  | cons p ps ih =>
    rw [List.foldl_cons, ih _ (by rw [List.length_set]; exact hj)
      (fun q hq => by
        rw [List.length_set]
        exact hp q (List.mem_cons_of_mem _ hq))]
    by_cases h : p.2 = j
    · rw [List.filter_cons_of_pos (by simpa using h), List.map_cons, List.sum_cons]
      rw [h, getD_set_self _ _ _ _ hj, add_assoc]
    · rw [List.filter_cons_of_neg (by simpa using h), getD_set_ne _ _ _ _ _ h]

theorem range_scatter_eq_zip (r : List F) (idx : List Nat) (w : List F)
    (hlen : idx.length = r.length) :
    (List.range r.length).foldl
      (fun cw i => cw.set (idx.getD i 0)
        (cw.getD (idx.getD i 0) 0 + r.getD i 0)) w =
    (r.zip idx).foldl (fun lw p => lw.set p.2 (lw.getD p.2 0 + p.1)) w := by
  induction r generalizing idx w with
  | nil => simp
  | cons x r ih =>
    cases idx with
    | nil => simp at hlen
    | cons y idx =>
      rw [List.length_cons, List.range_succ_eq_map, List.foldl_cons, List.foldl_map]
      simp only [List.getD_cons_zero, List.getD_cons_succ, Nat.succ_eq_add_one]
      rw [List.zip_cons_cons, List.foldl_cons]
      exact ih idx _ (by simpa using hlen)

theorem zip_take {α β : Type} (n : Nat) (l : List α) (l' : List β) :
    (l.zip l').take n = (l.take n).zip (l'.take n) := by
  induction n generalizing l l' with
  | zero => simp
  | succ n ih =>
    cases l with
    | nil => simp
    | cons a l =>
      cases l' with
      | nil => simp
      | cons b l' => simp [List.zip_cons_cons, ih]

theorem zip_drop {α β : Type} (n : Nat) (l : List α) (l' : List β)
    (h : l.length = l'.length) :
    (l.zip l').drop n = (l.drop n).zip (l'.drop n) := by
  induction n generalizing l l' with
  | zero => simp
  | succ n ih =>
    cases l with
    | nil => simp
    | cons a l =>
      cases l' with
      | nil => simp at h
      | cons b l' =>
        rw [List.zip_cons_cons, List.drop_succ_cons, List.drop_succ_cons,
          List.drop_succ_cons, ih _ _ (by simpa using h)]

theorem chunksOfAux_flatten {α : Type} (sz : Nat) (hsz : 1 ≤ sz) (fuel : Nat) :
    ∀ l : List α, l.length ≤ fuel → (chunksOfAux sz fuel l).flatten = l := by
  induction fuel with
  | zero =>
    intro l h
    have : l = [] := List.length_eq_zero.mp (by omega)
    rw [this]
    rfl
  | succ fuel ih =>
    intro l h
    cases l with
    | nil => rfl
    | cons a l =>
      rw [chunksOfAux, List.flatten_cons,
        ih _ (by rw [List.length_drop]; simp at h ⊢; omega),
        List.take_append_drop]

theorem zip_chunksOfAux {α β : Type} (sz : Nat) (fuel : Nat) :
    ∀ (r : List α) (s : List β), r.length = s.length →
    ((chunksOfAux sz fuel r).zip (chunksOfAux sz fuel s)).map
        (fun c => c.1.zip c.2) =
      chunksOfAux sz fuel (r.zip s) := by
  induction fuel with
  | zero => intro r s _; rfl
  | succ fuel ih =>
    intro r s h
    cases r with
    | nil =>
      cases s with
      | nil => rfl
      | cons b s => simp at h
    | cons a r =>
      cases s with
      | nil => simp at h
      | cons b s =>
        rw [chunksOfAux, chunksOfAux, List.zip_cons_cons, List.map_cons,
          List.zip_cons_cons, chunksOfAux]
        congr 1
        · show (List.take sz (a :: r)).zip (List.take sz (b :: s)) =
            List.take sz ((a, b) :: r.zip s)
          rw [← zip_take, List.zip_cons_cons]
        · rw [ih _ _ (by
              simp only [List.length_drop, List.length_cons]
              simp only [List.length_cons] at h
              omega),
            ← List.zip_cons_cons, zip_drop _ _ _ h]

theorem zipWith_add_getD (w lw : List F) (h : lw.length = w.length) (j : Nat) :
    (List.zipWith (fun c x => c + x) w lw).getD j 0 = w.getD j 0 + lw.getD j 0 := by
  by_cases hj : j < w.length
  · rw [List.getD_eq_getElem?_getD,
      List.getElem?_eq_getElem (by rw [List.length_zipWith]; omega),
      List.getElem_zipWith, List.getD_eq_getElem?_getD,
      List.getElem?_eq_getElem (by omega), List.getD_eq_getElem?_getD,
      List.getElem?_eq_getElem (by omega)]
    rfl
  · rw [getD_eq_default _ _ _ (by rw [List.length_zipWith]; omega),
      getD_eq_default _ _ _ (by omega), getD_eq_default _ _ _ (by omega), add_zero]

theorem combineFold_getD (locals : List (List F)) (w : List F) (j : Nat)
    (hloc : ∀ lw ∈ locals, lw.length = w.length) :
    (locals.foldl (fun cw lw => List.zipWith (fun c x => c + x) cw lw) w).getD j 0 =
      w.getD j 0 + (locals.map fun lw => lw.getD j 0).sum := by
  induction locals generalizing w with
  | nil => simp
  | cons lw locals ih =>
    have hlw : lw.length = w.length := hloc lw (List.mem_cons_self lw locals)
    have hzl : (List.zipWith (fun c x => c + x) w lw).length = w.length := by
      rw [List.length_zipWith, hlw, min_self]
    rw [List.foldl_cons, ih _ (fun q hq => by
        rw [hzl]
        exact hloc q (List.mem_cons_of_mem _ hq)),
      zipWith_add_getD _ _ hlw, List.map_cons, List.sum_cons, add_assoc]

theorem combineFold_length (locals : List (List F)) (w : List F)
    (hloc : ∀ lw ∈ locals, lw.length = w.length) :
    (locals.foldl (fun cw lw => List.zipWith (fun c x => c + x) cw lw) w).length
      = w.length := by
  induction locals generalizing w with
  | nil => rfl
  | cons lw locals ih =>
    have hlw : lw.length = w.length := hloc lw (List.mem_cons_self lw locals)
    have hzl : (List.zipWith (fun c x => c + x) w lw).length = w.length := by
      rw [List.length_zipWith, hlw, min_self]
    rw [List.foldl_cons, ih _ (fun q hq => by
        rw [hzl]
        exact hloc q (List.mem_cons_of_mem _ hq)), hzl]

theorem getD_replicate_zero (n j : Nat) :
    (List.replicate n (0 : F)).getD j 0 = 0 := by
  rw [List.getD_eq_getElem?_getD, List.getElem?_replicate]
  split <;> rfl

theorem getElem_eq_getD {α : Type} (l : List α) (n : Nat) (d : α)
    (h : n < l.length) : l[n] = l.getD n d := by
  rw [List.getD_eq_getElem?_getD, List.getElem?_eq_getElem h]
  rfl

@[simp] theorem chunksOf_nil {α : Type} (sz : Nat) :
    chunksOf (α := α) sz [] = [] := by
  unfold chunksOf
  split <;> rfl

theorem zip_chunksOf {α β : Type} (sz : Nat) (r : List α) (s : List β)
    (h : r.length = s.length) :
    ((chunksOf sz r).zip (chunksOf sz s)).map (fun c => c.1.zip c.2) =
      chunksOf sz (r.zip s) := by
  unfold chunksOf
  split
  · rfl
  · rw [List.length_zip, ← h, min_self]
    exact zip_chunksOfAux sz r.length r s h

/-- C9: with every `commitment_indices[i] < commitments.len()` and `r_powers`
of the same length as `commitment_indices`, the parallel (chunked
partial-weight) and sequential implementations of
`compute_weighted_sum_of_commitments` return the same group element, for any
positive thread count: the result is independent of thread count and
chunking. -/
theorem compute_weighted_sum_of_commitments_par_eq (numThreads : Nat)
    (commitments : List G) (commitment_indices : List Nat) (r_powers : List F)
    (hT : 0 < numThreads)
    (hlen : commitment_indices.length = r_powers.length)
    (hidx : ∀ i ∈ commitment_indices, i < commitments.length) :
    compute_weighted_sum_of_commitments_par numThreads commitments
        commitment_indices r_powers =
      compute_weighted_sum_of_commitments commitments commitment_indices r_powers := by
  simp only [compute_weighted_sum_of_commitments_par,
    compute_weighted_sum_of_commitments]
  congr 1
  have hpairs : ∀ p ∈ r_powers.zip commitment_indices,
      p.2 < (List.replicate commitments.length (0 : F)).length := by
    intro p hp
    rw [List.length_replicate]
    obtain ⟨p1, p2⟩ := p
    exact hidx p2 (List.of_mem_zip hp).2
  by_cases hr : r_powers = []
  · have hi : commitment_indices = [] := by
      rw [← List.length_eq_zero, hlen, hr]
      rfl
    rw [hr, hi]
    simp [chunksOf_nil]
  · have hrl : 1 ≤ r_powers.length := by
      have := List.length_pos.mpr hr
      omega
    have hsz : 1 ≤ (r_powers.length + numThreads - 1) / numThreads := by
      rw [Nat.le_div_iff_mul_le hT]
      omega
    have hflat : (chunksOf ((r_powers.length + numThreads - 1) / numThreads)
        (r_powers.zip commitment_indices)).flatten = r_powers.zip commitment_indices := by
      unfold chunksOf
      rw [if_neg (by omega)]
      exact chunksOfAux_flatten _ hsz _ _ le_rfl
    have hchunkmem : ∀ ps ∈ chunksOf ((r_powers.length + numThreads - 1) / numThreads)
        (r_powers.zip commitment_indices), ∀ p ∈ ps, p ∈ r_powers.zip commitment_indices := by
      intro ps hps p hp
      rw [← hflat]
      exact List.mem_flatten.mpr ⟨ps, hps, hp⟩
    -- rewrite the zipped chunk list into chunks of the zipped list
    rw [show (((chunksOf ((r_powers.length + numThreads - 1) / numThreads) r_powers).zip
        (chunksOf ((r_powers.length + numThreads - 1) / numThreads)
          commitment_indices)).map fun c =>
          (c.1.zip c.2).foldl (fun lw p => lw.set p.2 (lw.getD p.2 0 + p.1))
            (List.replicate commitments.length (0 : F))) =
        ((chunksOf ((r_powers.length + numThreads - 1) / numThreads)
          (r_powers.zip commitment_indices)).map fun ps =>
          ps.foldl (fun lw p => lw.set p.2 (lw.getD p.2 0 + p.1))
            (List.replicate commitments.length (0 : F))) from by
      rw [← zip_chunksOf _ _ _ (by rw [hlen]), List.map_map]
      rfl]
    rw [range_scatter_eq_zip _ _ _ hlen]
    have hloc : ∀ lw ∈ (chunksOf ((r_powers.length + numThreads - 1) / numThreads)
        (r_powers.zip commitment_indices)).map fun ps =>
          ps.foldl (fun lw p => lw.set p.2 (lw.getD p.2 0 + p.1))
            (List.replicate commitments.length (0 : F)),
        lw.length = (List.replicate commitments.length (0 : F)).length := by
      intro lw hlw
      obtain ⟨ps, _, hps⟩ := List.mem_map.mp hlw
      rw [← hps]
      exact scatterFold_length _ _
    apply List.ext_getElem
    · rw [combineFold_length _ _ hloc, scatterFold_length]
    · intro n h1 h2
      rw [getElem_eq_getD _ _ (0 : F) h1, getElem_eq_getD _ _ (0 : F) h2]
      show _ = ((r_powers.zip commitment_indices).foldl
        (fun lw p => lw.set p.2 (lw.getD p.2 0 + p.1))
        (List.replicate commitments.length (0 : F))).getD n 0
      rw [combineFold_getD _ _ _ hloc, scatterFold_getD _ _ _
        (by rw [combineFold_length _ _ hloc] at h1; exact h1) hpairs,
        getD_replicate_zero, zero_add, zero_add, List.map_map]
      have hmapchunks : (chunksOf ((r_powers.length + numThreads - 1) / numThreads)
          (r_powers.zip commitment_indices)).map
            ((fun lw => lw.getD n 0) ∘ fun ps =>
              ps.foldl (fun lw p => lw.set p.2 (lw.getD p.2 0 + p.1))
                (List.replicate commitments.length (0 : F))) =
          (chunksOf ((r_powers.length + numThreads - 1) / numThreads)
            (r_powers.zip commitment_indices)).map fun ps =>
              ((ps.filter fun p => p.2 == n).map Prod.fst).sum := by
        apply List.map_congr_left
        intro ps hps
        show (ps.foldl (fun lw p => lw.set p.2 (lw.getD p.2 0 + p.1))
            (List.replicate commitments.length (0 : F))).getD n 0 = _
        rw [scatterFold_getD _ _ _
          (by rw [combineFold_length _ _ hloc] at h1; exact h1)
          (fun p hp => hpairs p (hchunkmem ps hps p hp)),
          getD_replicate_zero, zero_add]
      rw [hmapchunks]
      conv_rhs => rw [← hflat]
      rw [List.filter_flatten, List.map_flatten, List.sum_flatten,
        List.map_map, List.map_map]
      rfl

/-- Witness for C9: two commitments, three rows, two threads over the
17-element field (with `G` the field itself as a module over itself). -/
theorem compute_weighted_sum_of_commitments_par_eq_witness :
    (0 < 2 ∧ ([0, 1, 0] : List Nat).length = ([3, 5, 7] : List (Fin 17)).length ∧
      ∀ i ∈ ([0, 1, 0] : List Nat), i < ([1, 2] : List (Fin 17)).length) ∧
    compute_weighted_sum_of_commitments_par 2 ([1, 2] : List (Fin 17)) [0, 1, 0]
        ([3, 5, 7] : List (Fin 17)) =
      compute_weighted_sum_of_commitments ([1, 2] : List (Fin 17)) [0, 1, 0]
        ([3, 5, 7] : List (Fin 17)) :=
  ⟨⟨by decide, by decide, by decide⟩,
    compute_weighted_sum_of_commitments_par_eq 2 [1, 2] [0, 1, 0] [3, 5, 7]
      (by decide) (by decide) (by decide)⟩

end WeightedSum

/-- Witness for C6 at `a = [3, 5]` over the 17-element field; the round-trip
hypothesis for the modelled backend FFT at length 2 is checked exhaustively. -/
theorem coset_fft_roundtrip_witness :
    (([3, 5] : List (Fin 17)) ≠ [] ∧ isPow2 ([3, 5] : List (Fin 17)).length = true ∧
      ([3, 5] : List (Fin 17)).length ≤ wFS.maxWidth ∧ (7 : Fin 17) ≠ 0) ∧
    ((coset_fft wFS [3, 5]).bind (fun y => coset_ifft wFS y) = .ok [3, 5] ∧
      coset_fft wFS ([] : List (Fin 17)) = .error .invalidInputLength ∧
      coset_ifft wFS ([] : List (Fin 17)) = .error .invalidInputLength) := by
  have hall : ∀ x y : Fin 17,
      (fftFr wFS [x, y] false).bind (fun w => fftFr wFS w true) = .ok [x, y] := by
    decide
  have hrt : ∀ v : List (Fin 17), v.length = ([3, 5] : List (Fin 17)).length →
      (fftFr wFS v false).bind (fun w => fftFr wFS w true) = .ok v := by
    intro v hv
    cases v with
    | nil => simp at hv
    | cons x t =>
      cases t with
      | nil => simp at hv
      | cons y t2 =>
        cases t2 with
        | nil => exact hall x y
        | cons z t3 => simp at hv
  exact ⟨⟨by decide, by decide, by decide, by decide⟩,
    coset_fft_roundtrip wFS [3, 5] (by decide) (by decide) (by decide) (by decide) hrt⟩

section Recovery

variable {F : Type} [Field F] [DecidableEq F] [FrNullM F]
variable {G H : Type} [AddCommGroup G] [Module F G] [DecidableEq G]

/-- `vanishing_polynomial_for_missing_cells` of `das.rs`: reject an empty or
too-large missing set, look the missing cells' coset generators up in the
roots-of-unity table at stride `FIELD_ELEMENTS_PER_EXT_BLOB/CELLS_PER_EXT_BLOB`,
build the short vanishing polynomial and spread its coefficients at stride
`FIELD_ELEMENTS_PER_CELL` into a zero-initialised buffer of length
`FIELD_ELEMENTS_PER_EXT_BLOB`. -/
def vanishing_polynomial_for_missing_cells (FEPC : Nat) (P : PresetM)
    (missing_cell_indicies : List Nat) (fs : FFTSettingsM F) :
    Except Err (List F) :=
  if missing_cell_indicies.isEmpty ∨
      missing_cell_indicies.length ≥ P.CELLS_PER_EXT_BLOB then
    .error .invalidMissingCount
  else
    let stride := P.FIELD_ELEMENTS_PER_EXT_BLOB / P.CELLS_PER_EXT_BLOB
    let roots := missing_cell_indicies.map fun i => fs.rootsOfUnity (i * stride)
    (compute_vanishing_polynomial_from_roots roots).map fun short =>
      (List.range short.length).foldl
        (fun vp i => vp.set (i * FEPC) (short.getD i 0))
        (List.replicate P.FIELD_ELEMENTS_PER_EXT_BLOB (0 : F))

/-- The missing-cell list built by the first loop of `recover_cells`: for
each `i` below `CELLS_PER_EXT_BLOB` not contained in `cell_indicies`, push
`reverse_bits_limited(CELLS_PER_EXT_BLOB, i)`. -/
def missing_cell_indices_of (C : Nat) (cell_indicies : List Nat) : List Nat :=
  ((List.range C).filter fun i => !(cell_indicies.contains i)).map
    fun i => reverse_bits_limited C i

/-- `recover_cells` of `das.rs` (the flat-buffer recovery engine).  The
in-place division loop (`extended_evaluations_over_coset[i] /= …` with `?`)
is rendered as a `mapM` over the index range; the final
`output.clone_from_slice(&out); reverse_bit_order(output)?` is the returned
bit-reversed list (the slice copy requires equal lengths, which holds because
the FFTs preserve the buffer length). -/
def recover_cells (FEPC : Nat) (P : PresetM) (output : List F)
    (cell_indicies : List Nat) (fs : FFTSettingsM F) : Except Err (List F) :=
  (reverse_bit_order output).bind fun cells_brp =>
  if (missing_cell_indices_of P.CELLS_PER_EXT_BLOB cell_indicies).length >
      P.CELLS_PER_EXT_BLOB / 2 then
    .error .notEnoughCells
  else
    (vanishing_polynomial_for_missing_cells FEPC P
        (missing_cell_indices_of P.CELLS_PER_EXT_BLOB cell_indicies)
        fs).bind fun vanishing_poly_coeff =>
    (fftFr fs vanishing_poly_coeff false).bind fun vanishing_poly_eval =>
    let extended_evaluation_times_zero :=
      (List.range P.FIELD_ELEMENTS_PER_EXT_BLOB).map fun i =>
        if isNull (cells_brp.getD i 0) then (0 : F)
        else (cells_brp.getD i 0) * (vanishing_poly_eval.getD i 0)
    (fftFr fs extended_evaluation_times_zero true).bind
      fun extended_evaluation_times_zero_coeffs =>
    (coset_fft fs extended_evaluation_times_zero_coeffs).bind
      fun extended_evaluations_over_coset =>
    (coset_fft fs vanishing_poly_coeff).bind fun vanishing_poly_over_coset =>
    ((List.range P.FIELD_ELEMENTS_PER_EXT_BLOB).mapM fun i =>
        frDiv (extended_evaluations_over_coset.getD i 0)
          (vanishing_poly_over_coset.getD i 0)).bind
      fun divided =>
    (coset_ifft fs divided).bind fun reconstructed_poly_coeff =>
    (fftFr fs reconstructed_poly_coeff false).bind fun out =>
    reverse_bit_order out

/-- `poly_lagrange_to_monomial` of `das.rs`: bit-reverse a copy, inverse FFT,
write back. -/
def poly_lagrange_to_monomial (lagrange_poly : List F) (fs : FFTSettingsM F) :
    Except Err (List F) :=
  (reverse_bit_order lagrange_poly).bind fun poly => fftFr fs poly true

/-- `recovered_proofs.as_ref().is_some_and(|it| it.len() != P::CELLS_PER_EXT_BLOB)`. -/
def someAndLenNe {α : Type} (o : Option (List α)) (n : Nat) : Bool :=
  match o with
  | some l => l.length != n
  | none => false

/-- The scatter loop of `recover_cells_and_kzg_proofs`
(`for i in 0..cells.len()`): reject if the target slot already holds a
non-null element, otherwise overwrite the slot; returns the buffer state
together with the outcome (the Rust loop mutates `recovered_cells` in place
and returns early on the duplicate error). -/
def scatter_cells : List (Nat × List F) → List (List F) →
    List (List F) × Except Err Unit
  | [], buf => (buf, .ok ())
  | (index, cell) :: rest, buf =>
    if (buf.getD index []).any (fun fr => !isNull fr) then
      (buf, .error .invalidOutputCell)
    else
      scatter_cells rest (buf.set index cell)

/-- The buffer state and outcome of `recover_cells_and_kzg_proofs` of
`das.rs` (`result` is the `Result<(), String>`; the two buffer fields are the
contents of the caller's `recovered_cells`/`recovered_proofs` buffers when
the call returns, mutation being modelled by state passing). -/
structure RecoverOut (F G : Type) where
  recovered_cells : List (List F)
  recovered_proofs : Option (List G)
  result : Except Err Unit

theorem contains_eq_decide_mem (l : List Nat) (x : Nat) :
    l.contains x = decide (x ∈ l) := by
  by_cases hm : x ∈ l
  · simp [hm]
  · simp [hm]

theorem nodup_bounded_length (idx : List Nat) (n : Nat) (hnd : idx.Nodup)
    (hlt : ∀ i ∈ idx, i < n) : idx.length ≤ n := by
  have h1 : idx.toFinset ⊆ Finset.range n := by
    intro a ha
    rw [List.mem_toFinset] at ha
    exact Finset.mem_range.mpr (hlt a ha)
  have h2 := Finset.card_le_card h1
  rw [List.toFinset_card_of_nodup hnd, Finset.card_range] at h2
  exact h2

/-- The number of cells of the extension missing from a duplicate-free,
in-range index list. -/
theorem missing_filter_count (C : Nat) (idx : List Nat) (hnd : idx.Nodup)
    (hlt : ∀ i ∈ idx, i < C) :
    ((List.range C).filter fun i => !(idx.contains i)).length = C - idx.length := by
  induction C generalizing idx with
  | zero =>
    have hidx : idx = [] := by
      cases idx with
      | nil => rfl
      | cons a t => exact absurd (hlt a (List.mem_cons_self a t)) (by omega)
    rw [hidx]
    rfl
  | succ C ih =>
    rw [List.range_succ, List.filter_append]
    have hcongr : (List.range C).filter (fun i => !(idx.contains i)) =
        (List.range C).filter (fun i => !((idx.erase C).contains i)) := by
      apply List.filter_congr
      intro x hx
      have hxC : x ≠ C := by
        have := List.mem_range.mp hx
        omega
      rw [contains_eq_decide_mem, contains_eq_decide_mem]
      congr 1
      exact decide_eq_decide.mpr (List.mem_erase_of_ne hxC).symm
    have hnd' : (idx.erase C).Nodup := List.Nodup.erase C hnd
    have hlt' : ∀ i ∈ idx.erase C, i < C := by
      intro i hi
      have hmem : i ∈ idx := List.mem_of_mem_erase hi
      have hne : i ≠ C := by
        intro hE
        subst hE
        exact List.Nodup.not_mem_erase hnd hi
      have := hlt i hmem
      omega
    rw [hcongr, List.length_append, ih _ hnd' hlt']
    by_cases hC : C ∈ idx
    · have hf : List.filter (fun i => !(idx.contains i)) [C] = [] := by
        simp [hC]
      rw [hf]
      have h1 : (idx.erase C).length = idx.length - 1 :=
        List.length_erase_of_mem hC
      have h2 : idx.length ≤ C + 1 := nodup_bounded_length idx (C + 1) hnd hlt
      have h3 : 1 ≤ idx.length := by
        cases idx with
        | nil => simp at hC
        | cons a t => simp
      rw [h1]
      simp only [List.length_nil]
      omega
    · have hf : List.filter (fun i => !(idx.contains i)) [C] = [C] := by
        simp [hC]
      have heq : idx.erase C = idx := List.erase_of_not_mem hC
      rw [hf, heq]
      have h2 : idx.length ≤ C := by
        apply nodup_bounded_length idx C hnd
        intro i hi
        have hiC : i ≠ C := fun hE => hC (hE ▸ hi)
        have := hlt i hi
        omega
      simp only [List.length_singleton]
      omega

/-- The optional proofs phase of `recover_cells_and_kzg_proofs`: convert the
full flat buffer to monomial form, run FK20 with `n = FIELD_ELEMENTS_PER_BLOB`,
copy the result into the proofs buffer (`clone_from_slice`, equal lengths
required) and bit-reverse it in place (a failing final bit-reversal leaves
the un-reversed copy in the buffer, exactly as in the source). -/
def recover_proofs_phase (FEPC : Nat) (P : PresetM) (ks : KZGSettingsM F G H)
    (bufc : List (List F)) (recovered_proofs : Option (List G)) : RecoverOut F G :=
  match recovered_proofs with
  | none => ⟨bufc, none, .ok ()⟩
  | some proofsBuf =>
    match (poly_lagrange_to_monomial bufc.flatten ks.fftSettings).bind
        fun poly => compute_fk20_proofs FEPC ks.fftSettings ks poly
          P.FIELD_ELEMENTS_PER_BLOB with
    | .error e => ⟨bufc, some proofsBuf, .error e⟩
    | .ok res =>
      match reverse_bit_order res with
      | .error e => ⟨bufc, some res, .error e⟩
      | .ok rp => ⟨bufc, some rp, .ok ()⟩

/-- Everything after the scatter phase of `recover_cells_and_kzg_proofs`:
run `recover_cells` on the flattened buffer when some cells are missing (on
an error inside `recover_cells` the buffer keeps the scattered state: the
source writes `output` back only after the last fallible FFT), then the
optional proofs phase. -/
def recover_tail (FEPC : Nat) (P : PresetM) (ks : KZGSettingsM F G H)
    (scattered : List (List F)) (recovered_proofs : Option (List G))
    (cell_indices : List Nat) (cells : List (List F)) : RecoverOut F G :=
  if cells.length ≠ P.CELLS_PER_EXT_BLOB then
    match recover_cells FEPC P scattered.flatten cell_indices
        ks.fftSettings with
    | .error e => ⟨scattered, recovered_proofs, .error e⟩
    | .ok flat => recover_proofs_phase FEPC P ks (chunksOf FEPC flat)
        recovered_proofs
  else recover_proofs_phase FEPC P ks scattered recovered_proofs

/-- `recover_cells_and_kzg_proofs` of `das.rs` (the `DAS` trait method).
Validation checks in source order; then all output cells are nulled, the
provided cells are scattered (rejecting a doubly-written slot), and the
recovery/proofs phases run (`recover_tail`). -/
def recover_cells_and_kzg_proofs (FEPC : Nat) (P : PresetM)
    (ks : KZGSettingsM F G H) (recovered_cells : List (List F))
    (recovered_proofs : Option (List G)) (cell_indices : List Nat)
    (cells : List (List F)) : RecoverOut F G :=
  if recovered_cells.length ≠ P.CELLS_PER_EXT_BLOB ∨
      someAndLenNe recovered_proofs P.CELLS_PER_EXT_BLOB then
    ⟨recovered_cells, recovered_proofs, .error .invalidOutputLength⟩
  else if cells.length ≠ cell_indices.length then
    ⟨recovered_cells, recovered_proofs, .error .cellIndicesMismatch⟩
  else if cells.length > P.CELLS_PER_EXT_BLOB then
    ⟨recovered_cells, recovered_proofs, .error .cellLengthTooLarge⟩
  else if cells.length < P.CELLS_PER_EXT_BLOB / 2 then
    ⟨recovered_cells, recovered_proofs, .error .insufficientCells⟩
  else if ∃ ci ∈ cell_indices, ci ≥ P.CELLS_PER_EXT_BLOB then
    ⟨recovered_cells, recovered_proofs, .error .cellIndexTooLarge⟩
  else
    match scatter_cells (cell_indices.zip cells)
        (recovered_cells.map fun cell => cell.map fun _ => (FrNullM.null : F)) with
    | (scattered, .error e) => ⟨scattered, recovered_proofs, .error e⟩
    | (scattered, .ok _) =>
      recover_tail FEPC P ks scattered recovered_proofs cell_indices cells

theorem ite_error {α : Type} {c : Prop} [Decidable c] {x y : Except Err α}
    {e : Err} (h : (if c then x else y) = .error e) :
    (c ∧ x = .error e) ∨ (¬c ∧ y = .error e) := by
  by_cases hc : c
  · rw [if_pos hc] at h
    exact Or.inl ⟨hc, h⟩
  · rw [if_neg hc] at h
    exact Or.inr ⟨hc, h⟩

theorem bind_error {ε α β : Type} (x : Except ε α) (f : α → Except ε β) (e : ε)
    (h : x.bind f = .error e) : x = .error e ∨ ∃ a, x = .ok a ∧ f a = .error e := by
  cases x with
  | error e' =>
    left
    rw [except_bind_error] at h
    injection h with h
    rw [h]
  | ok a =>
    right
    refine ⟨a, rfl, ?_⟩
    rw [except_bind_ok] at h
    exact h

theorem map_error {ε α β : Type} (x : Except ε α) (g : α → β) (e : ε)
    (h : x.map g = .error e) : x = .error e := by
  cases x with
  | error e' =>
    rw [except_map_error] at h
    injection h with h
    rw [h]
  | ok a => exact absurd h (by simp [Except.map])

theorem mapM_error {α β : Type} (f : α → Except Err β) (l : List α) (e : Err)
    (h : l.mapM f = .error e) : ∃ a ∈ l, f a = .error e := by
  induction l with
  | nil =>
    exact absurd h (by intro hc; injection hc)
  | cons a t ih =>
    rw [List.mapM_cons] at h
    cases hfa : f a with
    | error e1 =>
      rw [hfa, except_monadbind_error] at h
      injection h with h
      refine ⟨a, List.mem_cons_self a t, ?_⟩
      rw [hfa, h]
    | ok b =>
      rw [hfa, except_monadbind_ok] at h
      cases hmt : t.mapM f with
      | error e2 =>
        rw [hmt, except_monadbind_error] at h
        injection h with h
        subst h
        obtain ⟨c, hc, hce⟩ := ih hmt
        exact ⟨c, List.mem_cons_of_mem _ hc, hce⟩
      | ok bs =>
        rw [hmt, except_monadbind_ok] at h
        exact absurd h (by intro hc; injection hc)

theorem frDiv_error (a b : F) (e : Err) (h : frDiv a b = .error e) :
    e = .divByZero := by
  revert h
  unfold frDiv
  split
  · intro h
    injection h with h
    rw [h]
  · intro h
    exact absurd h (by simp)

theorem reverse_bit_order_error {α : Type} [Inhabited α] (l : List α) (e : Err)
    (h : reverse_bit_order l = .error e) : e = .rboLength := by
  revert h
  unfold reverse_bit_order
  split
  · intro h
    exact absurd h (by simp)
  · intro h
    injection h with h
    rw [h]

theorem compute_vanishing_polynomial_from_roots_error (roots : List F) (e : Err)
    (h : compute_vanishing_polynomial_from_roots roots = .error e) :
    e = .rootsEmpty := by
  revert h
  unfold compute_vanishing_polynomial_from_roots
  split
  · intro h
    injection h with h
    rw [h]
  · intro h
    exact absurd h (by simp)

theorem vanishing_polynomial_for_missing_cells_error (FEPC : Nat) (P : PresetM)
    (mci : List Nat) (fs : FFTSettingsM F) (e : Err)
    (h : vanishing_polynomial_for_missing_cells FEPC P mci fs = .error e) :
    e = .invalidMissingCount ∨ e = .rootsEmpty := by
  revert h
  unfold vanishing_polynomial_for_missing_cells
  split
  · intro h
    injection h with h
    left
    rw [h]
  · intro h
    right
    exact compute_vanishing_polynomial_from_roots_error _ _ (map_error _ _ _ h)

theorem coset_fft_error (fs : FFTSettingsM F) (input : List F) (e : Err)
    (h : coset_fft fs input = .error e) :
    e = .invalidInputLength ∨ e = .fftLength := by
  revert h
  unfold coset_fft
  split
  · intro h
    injection h with h
    left
    rw [h]
  · intro h
    right
    exact fftFr_error _ _ _ _ h

theorem coset_ifft_error (fs : FFTSettingsM F) (input : List F) (e : Err)
    (h : coset_ifft fs input = .error e) :
    e = .invalidInputLength ∨ e = .fftLength ∨ e = .divByZero := by
  revert h
  unfold coset_ifft
  split
  · intro h
    injection h with h
    left
    rw [h]
  · intro h
    rcases bind_error _ _ _ h with h1 | ⟨a, _, h2⟩
    · right
      left
      exact fftFr_error _ _ _ _ h1
    · right
      right
      exact frDiv_error _ _ _ (map_error _ _ _ h2)

theorem toeplitz_coeffs_stride_error (out input : List F) (n offset stride : Nat)
    (e : Err) (h : toeplitz_coeffs_stride out input n offset stride = .error e) :
    e = .strideZero := by
  revert h
  unfold toeplitz_coeffs_stride
  split
  · intro h
    injection h with h
    rw [h]
  · intro h
    exact absurd h (by simp)

theorem compute_fk20_proofs_error
    (FEPC : Nat) (fs : FFTSettingsM F) (ks : KZGSettingsM F G H) (poly : List F)
    (n : Nat) (e : Err)
    (h : compute_fk20_proofs FEPC fs ks poly n = .error e) :
    e = .strideZero ∨ e = .fftLength := by
  unfold compute_fk20_proofs at h
  rcases bind_error _ _ _ h with h1 | ⟨cols, _, h2⟩
  · obtain ⟨i, _, hi⟩ := mapM_error _ _ _ h1
    rcases bind_error _ _ _ hi with h3 | ⟨t, _, h4⟩
    · left
      exact toeplitz_coeffs_stride_error _ _ _ _ _ _ h3
    · right
      exact fftFr_error _ _ _ _ h4
  · rcases bind_error _ _ _ h2 with h3 | ⟨hh, _, h4⟩
    · right
      exact fftG1_error _ _ _ _ h3
    · right
      exact fftG1_error _ _ _ _ h4

theorem poly_lagrange_to_monomial_error (lp : List F) (fs : FFTSettingsM F)
    (e : Err) (h : poly_lagrange_to_monomial lp fs = .error e) :
    e = .rboLength ∨ e = .fftLength := by
  unfold poly_lagrange_to_monomial at h
  rcases bind_error _ _ _ h with h1 | ⟨a, _, h2⟩
  · left
    exact reverse_bit_order_error _ _ h1
  · right
    exact fftFr_error _ _ _ _ h2

/-- Errors of `recover_cells`: `"Not enough cells"` arises exactly from the
missing-count check; every other error is a non-insufficiency failure of one
of the algebraic steps. -/
theorem recover_cells_error (FEPC : Nat) (P : PresetM) (output : List F)
    (ci : List Nat) (fs : FFTSettingsM F) (e : Err)
    (h : recover_cells FEPC P output ci fs = .error e) :
    (e = .notEnoughCells ∧
      (missing_cell_indices_of P.CELLS_PER_EXT_BLOB ci).length >
        P.CELLS_PER_EXT_BLOB / 2) ∨
    e = .rboLength ∨ e = .invalidMissingCount ∨ e = .rootsEmpty ∨
      e = .fftLength ∨ e = .invalidInputLength ∨ e = .divByZero := by
  unfold recover_cells at h
  rcases bind_error _ _ _ h with h1 | ⟨brp, _, h2⟩
  · right
    left
    exact reverse_bit_order_error _ _ h1
  · rcases ite_error h2 with ⟨hc, h2⟩ | ⟨hc, h2⟩
    · injection h2 with h2
      left
      exact ⟨by rw [h2], hc⟩
    · rcases bind_error _ _ _ h2 with h3 | ⟨vpc, _, h4⟩
      · rcases vanishing_polynomial_for_missing_cells_error _ _ _ _ _ h3 with h | h
        · right; right; left; exact h
        · right; right; right; left; exact h
      · rcases bind_error _ _ _ h4 with h5 | ⟨vpe, _, h6⟩
        · right; right; right; right; left
          exact fftFr_error _ _ _ _ h5
        · rcases bind_error _ _ _ h6 with h7 | ⟨eetzc, _, h8⟩
          · right; right; right; right; left
            exact fftFr_error _ _ _ _ h7
          · rcases bind_error _ _ _ h8 with h9 | ⟨eeoc, _, h10⟩
            · rcases coset_fft_error _ _ _ h9 with h | h
              · right; right; right; right; right; left; exact h
              · right; right; right; right; left; exact h
            · rcases bind_error _ _ _ h10 with h11 | ⟨vpoc, _, h12⟩
              · rcases coset_fft_error _ _ _ h11 with h | h
                · right; right; right; right; right; left; exact h
                · right; right; right; right; left; exact h
              · rcases bind_error _ _ _ h12 with h13 | ⟨divided, _, h14⟩
                · obtain ⟨i, _, hi⟩ := mapM_error _ _ _ h13
                  right; right; right; right; right; right
                  exact frDiv_error _ _ _ hi
                · rcases bind_error _ _ _ h14 with h15 | ⟨rpc, _, h16⟩
                  · rcases coset_ifft_error _ _ _ h15 with h | h | h
                    · right; right; right; right; right; left; exact h
                    · right; right; right; right; left; exact h
                    · right; right; right; right; right; right; exact h
                  · rcases bind_error _ _ _ h16 with h17 | ⟨out2, _, h18⟩
                    · right; right; right; right; left
                      exact fftFr_error _ _ _ _ h17
                    · right; left
                      exact reverse_bit_order_error _ _ h18

theorem scatter_cells_error (pairs : List (Nat × List F)) (buf : List (List F))
    (e : Err) (h : (scatter_cells pairs buf).2 = .error e) :
    e = .invalidOutputCell := by
  induction pairs generalizing buf with
  | nil => exact absurd h (by intro hc; injection hc)
  | cons p rest ih =>
    obtain ⟨i, c⟩ := p
    unfold scatter_cells at h
    by_cases hcond : (buf.getD i []).any (fun fr => !isNull fr) = true
    · rw [if_pos hcond] at h
      injection h with h
      rw [← h]
    · rw [if_neg hcond] at h
      exact ih _ h

theorem getD_mem_of_lt {α : Type} (l : List α) (n : Nat) (d : α)
    (h : n < l.length) : l.getD n d ∈ l := by
  rw [List.getD_eq_getElem?_getD, List.getElem?_eq_getElem h]
  exact List.getElem_mem h

theorem zip_getD {α β : Type} (d1 : α) (d2 : β) :
    ∀ (l1 : List α) (l2 : List β) (k : Nat), k < l1.length → k < l2.length →
      (l1.zip l2).getD k (d1, d2) = (l1.getD k d1, l2.getD k d2)
  | [], _, _, h1, _ => absurd h1 (by simp)
  | _ :: _, [], _, _, h2 => absurd h2 (by simp)
  | _ :: _, _ :: _, 0, _, _ => rfl
  | a :: t1, b :: t2, k + 1, h1, h2 => by
    rw [List.zip_cons_cons, List.getD_cons_succ, List.getD_cons_succ,
      List.getD_cons_succ]
    exact zip_getD d1 d2 t1 t2 k (by simpa using h1) (by simpa using h2)

/-- If some slot already holds a non-null element and a later pair targets
that slot, the scatter loop rejects (it either errors before reaching that
pair — the only scatter error being the duplicate one — or its check fires
there, since no pair can overwrite a non-null slot). -/
theorem scatter_cells_written : ∀ (pairs : List (Nat × List F))
    (buf : List (List F)) (s : Nat), s < buf.length →
    ((buf.getD s []).any fun fr => !isNull fr) = true →
    (∃ m, m < pairs.length ∧ (pairs.getD m (0, ([] : List F))).1 = s) →
    (scatter_cells pairs buf).2 = .error .invalidOutputCell
  | [], _, _, _, _, ⟨_, hm, _⟩ => absurd hm (by simp)
  | (i, c) :: t, buf, s, hs, hcontent, ⟨m, hm, hms⟩ => by
    unfold scatter_cells
    by_cases hcond : ((buf.getD i []).any fun fr => !isNull fr) = true
    · rw [if_pos hcond]
    · rw [if_neg hcond]
      have his : i ≠ s := fun hE => hcond (hE ▸ hcontent)
      cases m with
      | zero =>
        rw [List.getD_cons_zero] at hms
        exact absurd hms his
      | succ m' =>
        rw [List.getD_cons_succ] at hms
        exact scatter_cells_written t (buf.set i c) s
          (by rw [List.length_set]; exact hs)
          (by rw [getD_set_ne _ _ _ _ _ his]; exact hcontent)
          ⟨m', by simp only [List.length_cons] at hm; omega, hms⟩

/-- If two pairs at positions `a < b` target the same slot and the cell of
the earlier pair has a non-null element, the scatter loop rejects: once the
pair at `a` is scattered, the slot is non-null and `scatter_cells_written`
applies to the rest. -/
theorem scatter_cells_dup_rejects : ∀ (pairs : List (Nat × List F))
    (buf : List (List F)) (a b : Nat), a < b → b < pairs.length →
    (pairs.getD b (0, ([] : List F))).1 = (pairs.getD a (0, ([] : List F))).1 →
    (pairs.getD a (0, ([] : List F))).1 < buf.length →
    ((pairs.getD a (0, ([] : List F))).2.any fun fr => !isNull fr) = true →
    (scatter_cells pairs buf).2 = .error .invalidOutputCell
  | [], _, _, b, _, hb, _, _, _ => absurd hb (by simp)
  | (i, c) :: t, buf, a, b, hab, hb, heq, hs, hnn => by
    unfold scatter_cells
    by_cases hcond : ((buf.getD i []).any fun fr => !isNull fr) = true
    · rw [if_pos hcond]
    · rw [if_neg hcond]
      cases b with
      | zero => exact absurd hab (by omega)
      | succ b' =>
        cases a with
        | zero =>
          rw [List.getD_cons_zero] at hs hnn
          rw [List.getD_cons_succ, List.getD_cons_zero] at heq
          exact scatter_cells_written t (buf.set i c) i
            (by rw [List.length_set]; exact hs)
            (by rw [getD_set_self _ _ _ _ hs]; exact hnn)
            ⟨b', by simp only [List.length_cons] at hb; omega, heq⟩
        | succ a' =>
          simp only [List.getD_cons_succ] at heq hs hnn
          exact scatter_cells_dup_rejects t (buf.set i c) a' b' (by omega)
            (by simp only [List.length_cons] at hb; omega) heq
            (by rw [List.length_set]; exact hs) hnn

theorem recover_proofs_phase_error (FEPC : Nat) (P : PresetM)
    (ks : KZGSettingsM F G H) (bufc : List (List F))
    (rp : Option (List G)) (e : Err)
    (h : (recover_proofs_phase FEPC P ks bufc rp).result = .error e) :
    e = .rboLength ∨ e = .fftLength ∨ e = .strideZero := by
  unfold recover_proofs_phase at h
  cases rp with
  | none => exact absurd h (by intro hc; injection hc)
  | some pb =>
    cases hb : (poly_lagrange_to_monomial bufc.flatten ks.fftSettings).bind
        (fun poly => compute_fk20_proofs FEPC ks.fftSettings ks poly
          P.FIELD_ELEMENTS_PER_BLOB) with
    | error e' =>
      simp only [hb] at h
      have he : e' = e := by
        injection h
      subst he
      rcases bind_error _ _ _ hb with h1 | ⟨a, _, h2⟩
      · rcases poly_lagrange_to_monomial_error _ _ _ h1 with h | h
        · exact Or.inl h
        · exact Or.inr (Or.inl h)
      · rcases compute_fk20_proofs_error _ _ _ _ _ _ h2 with h | h
        · exact Or.inr (Or.inr h)
        · exact Or.inr (Or.inl h)
    | ok res =>
      simp only [hb] at h
      cases hro : reverse_bit_order (α := G) res with
      | error e' =>
        simp only [hro] at h
        have he : e' = e := by
          injection h
        subst he
        exact Or.inl (reverse_bit_order_error _ _ hro)
      | ok rp2 =>
        simp only [hro] at h
        exact absurd h (by intro hc; injection hc)

theorem recover_tail_error (FEPC : Nat) (P : PresetM) (ks : KZGSettingsM F G H)
    (scattered : List (List F)) (rp : Option (List G)) (ci : List Nat)
    (cells : List (List F)) (e : Err)
    (h : (recover_tail FEPC P ks scattered rp ci cells).result = .error e) :
    (e = .notEnoughCells ∧
      (missing_cell_indices_of P.CELLS_PER_EXT_BLOB ci).length >
        P.CELLS_PER_EXT_BLOB / 2) ∨
    e = .rboLength ∨ e = .invalidMissingCount ∨ e = .rootsEmpty ∨
      e = .fftLength ∨ e = .invalidInputLength ∨ e = .divByZero ∨
      e = .strideZero := by
  unfold recover_tail at h
  by_cases hcl : cells.length ≠ P.CELLS_PER_EXT_BLOB
  · rw [if_pos hcl] at h
    cases hrc : recover_cells FEPC P scattered.flatten ci ks.fftSettings with
    | error e' =>
      rw [hrc] at h
      injection h with h
      subst h
      rcases recover_cells_error _ _ _ _ _ _ hrc with hA | hB
      · exact Or.inl hA
      · rcases hB with h | h | h | h | h | h <;> simp [h]
    | ok flat =>
      rw [hrc] at h
      rcases recover_proofs_phase_error _ _ _ _ _ _ h with h | h | h <;> simp [h]
  · rw [if_neg hcl] at h
    rcases recover_proofs_phase_error _ _ _ _ _ _ h with h | h | h <;> simp [h]

/-- Case analysis on an error outcome of `recover_cells_and_kzg_proofs`:
either a validation error (with both output buffers untouched and the
corresponding condition), or the insufficiency error of the recovery engine
(with its missing-count condition), or one of the later-phase failures. -/
theorem recover_result_cases (FEPC : Nat) (P : PresetM)
    (ks : KZGSettingsM F G H) (rc : List (List F)) (rp : Option (List G))
    (ci : List Nat) (cells : List (List F)) (e : Err)
    (h : (recover_cells_and_kzg_proofs FEPC P ks rc rp ci cells).result =
      .error e) :
    (((e = .invalidOutputLength ∧ (rc.length ≠ P.CELLS_PER_EXT_BLOB ∨
          someAndLenNe rp P.CELLS_PER_EXT_BLOB = true)) ∨
      (e = .cellIndicesMismatch ∧ cells.length ≠ ci.length) ∨
      (e = .cellLengthTooLarge ∧ cells.length > P.CELLS_PER_EXT_BLOB) ∨
      (e = .insufficientCells ∧ cells.length < P.CELLS_PER_EXT_BLOB / 2) ∨
      (e = .cellIndexTooLarge ∧ ∃ i ∈ ci, i ≥ P.CELLS_PER_EXT_BLOB)) ∧
      (recover_cells_and_kzg_proofs FEPC P ks rc rp ci cells).recovered_cells
        = rc ∧
      (recover_cells_and_kzg_proofs FEPC P ks rc rp ci
        cells).recovered_proofs = rp) ∨
    (e = .notEnoughCells ∧
      (missing_cell_indices_of P.CELLS_PER_EXT_BLOB ci).length >
        P.CELLS_PER_EXT_BLOB / 2) ∨
    (e = .invalidOutputCell ∨ e = .rboLength ∨ e = .invalidMissingCount ∨
      e = .rootsEmpty ∨ e = .fftLength ∨ e = .invalidInputLength ∨
      e = .divByZero ∨ e = .strideZero) := by
  unfold recover_cells_and_kzg_proofs at h ⊢
  by_cases h1 : rc.length ≠ P.CELLS_PER_EXT_BLOB ∨
      someAndLenNe rp P.CELLS_PER_EXT_BLOB = true
  · rw [if_pos h1] at h ⊢
    injection h with h
    exact Or.inl ⟨Or.inl ⟨h.symm, h1⟩, rfl, rfl⟩
  · rw [if_neg h1] at h ⊢
    by_cases h2 : cells.length ≠ ci.length
    · rw [if_pos h2] at h ⊢
      injection h with h
      exact Or.inl ⟨Or.inr (Or.inl ⟨h.symm, h2⟩), rfl, rfl⟩
    · rw [if_neg h2] at h ⊢
      by_cases h3 : cells.length > P.CELLS_PER_EXT_BLOB
      · rw [if_pos h3] at h ⊢
        injection h with h
        exact Or.inl ⟨Or.inr (Or.inr (Or.inl ⟨h.symm, h3⟩)), rfl, rfl⟩
      · rw [if_neg h3] at h ⊢
        by_cases h4 : cells.length < P.CELLS_PER_EXT_BLOB / 2
        · rw [if_pos h4] at h ⊢
          injection h with h
          exact Or.inl ⟨Or.inr (Or.inr (Or.inr (Or.inl ⟨h.symm, h4⟩))), rfl, rfl⟩
        · rw [if_neg h4] at h ⊢
          by_cases h5 : ∃ i ∈ ci, i ≥ P.CELLS_PER_EXT_BLOB
          · rw [if_pos h5] at h ⊢
            injection h with h
            exact Or.inl ⟨Or.inr (Or.inr (Or.inr (Or.inr ⟨h.symm, h5⟩))),
              rfl, rfl⟩
          · rw [if_neg h5] at h ⊢
            rcases hsc : scatter_cells (ci.zip cells)
                (rc.map fun cell => cell.map fun _ => (FrNullM.null : F)) with
              ⟨scattered, sres⟩
            rw [hsc] at h
            cases sres with
            | error e' =>
              injection h with h
              subst h
              have he' : e' = .invalidOutputCell :=
                scatter_cells_error _ _ _ (by rw [hsc])
              exact Or.inr (Or.inr (Or.inl he'))
            | ok u =>
              rcases recover_tail_error _ _ _ _ _ _ _ _ h with hA | hB
              · exact Or.inr (Or.inl hA)
              · rcases hB with h | h | h | h | h | h | h <;> simp [h]

/-- C2: `recover_cells_and_kzg_proofs` returns the insufficiency error
whenever fewer than `CELLS_PER_EXT_BLOB/2` cells are provided (given the
earlier validations pass), and with exactly `CELLS_PER_EXT_BLOB/2` provided
cells with valid, distinct indices and correct output-buffer lengths it never
returns an insufficiency error (neither the façade's `InsufficientCells` nor
the engine's `Not enough cells`). -/
theorem recover_cells_and_kzg_proofs_insufficiency (FEPC : Nat) (P : PresetM)
    (ks : KZGSettingsM F G H) (rc : List (List F)) (rp : Option (List G))
    (ci : List Nat) (cells : List (List F))
    (hout : rc.length = P.CELLS_PER_EXT_BLOB)
    (hproofs : someAndLenNe rp P.CELLS_PER_EXT_BLOB = false)
    (hcount : cells.length = ci.length)
    (hmax : cells.length ≤ P.CELLS_PER_EXT_BLOB)
    (hvalid : ∀ i ∈ ci, i < P.CELLS_PER_EXT_BLOB) :
    (cells.length < P.CELLS_PER_EXT_BLOB / 2 →
      (recover_cells_and_kzg_proofs FEPC P ks rc rp ci cells).result =
        .error .insufficientCells) ∧
    (cells.length = P.CELLS_PER_EXT_BLOB / 2 → ci.Nodup →
        P.CELLS_PER_EXT_BLOB % 2 = 0 →
      (recover_cells_and_kzg_proofs FEPC P ks rc rp ci cells).result ≠
          .error .insufficientCells ∧
        (recover_cells_and_kzg_proofs FEPC P ks rc rp ci cells).result ≠
          .error .notEnoughCells) := by
  constructor
  · intro hlt
    unfold recover_cells_and_kzg_proofs
    rw [if_neg (by
        intro hor
        rcases hor with h | h
        · exact h hout
        · rw [hproofs] at h
          exact Bool.false_ne_true h),
      if_neg (by omega), if_neg (by omega), if_pos hlt]
  · intro hhalf hnd heven
    have hmc : (missing_cell_indices_of P.CELLS_PER_EXT_BLOB ci).length =
        P.CELLS_PER_EXT_BLOB - ci.length := by
      unfold missing_cell_indices_of
      rw [List.length_map]
      exact missing_filter_count _ _ hnd hvalid
    constructor
    · intro habs
      rcases recover_result_cases _ _ _ _ _ _ _ _ habs with
        ⟨hval, _, _⟩ | ⟨hne, _⟩ | hsafe
      · rcases hval with ⟨he, _⟩ | ⟨he, _⟩ | ⟨he, _⟩ | ⟨he, hcond⟩ | ⟨he, _⟩
        · exact absurd he (by decide)
        · exact absurd he (by decide)
        · exact absurd he (by decide)
        · omega
        · exact absurd he (by decide)
      · exact absurd hne (by decide)
      · rcases hsafe with h | h | h | h | h | h | h | h <;>
          exact absurd h (by decide)
    · intro habs
      rcases recover_result_cases _ _ _ _ _ _ _ _ habs with
        ⟨hval, _, _⟩ | ⟨_, hgt⟩ | hsafe
      · rcases hval with ⟨he, _⟩ | ⟨he, _⟩ | ⟨he, _⟩ | ⟨he, _⟩ | ⟨he, _⟩ <;>
          exact absurd he (by decide)
      · omega
      · rcases hsafe with h | h | h | h | h | h | h | h <;>
          exact absurd h (by decide)

/-- The preset used by the concrete witnesses:
`FIELD_ELEMENTS_PER_BLOB = 1`, `FIELD_ELEMENTS_PER_EXT_BLOB = 2`,
`CELLS_PER_EXT_BLOB = 2` (with `FIELD_ELEMENTS_PER_CELL = 1`). -/
def wP : PresetM := ⟨1, 2, 2⟩

/-- The `Fr::null()` sentinel for the witness field (any designated value
serves the model; the real backend uses an encoding no arithmetic result
attains). -/
instance : FrNullM (Fin 17) := ⟨0⟩

/-- Witness for C2 at the small preset: one provided cell out of two
(`CELLS_PER_EXT_BLOB/2 = 1`). -/
theorem recover_cells_and_kzg_proofs_insufficiency_witness :
    (([[5], [6]] : List (List (Fin 17))).length = wP.CELLS_PER_EXT_BLOB ∧
      someAndLenNe (none : Option (List (Fin 17))) wP.CELLS_PER_EXT_BLOB =
        false ∧
      ([[3]] : List (List (Fin 17))).length = [0].length ∧
      ([[3]] : List (List (Fin 17))).length ≤ wP.CELLS_PER_EXT_BLOB ∧
      (∀ i ∈ [0], i < wP.CELLS_PER_EXT_BLOB) ∧
      ([[3]] : List (List (Fin 17))).length = wP.CELLS_PER_EXT_BLOB / 2 ∧
      ([0] : List Nat).Nodup ∧ wP.CELLS_PER_EXT_BLOB % 2 = 0) ∧
    ((recover_cells_and_kzg_proofs 1 wP wKS [[5], [6]] none [0]
        [[3]]).result ≠ .error .insufficientCells ∧
      (recover_cells_and_kzg_proofs 1 wP wKS [[5], [6]] none [0]
        [[3]]).result ≠ .error .notEnoughCells) :=
  ⟨⟨by decide, by decide, by decide, by decide, by decide, by decide,
      by decide, by decide⟩,
    (recover_cells_and_kzg_proofs_insufficiency 1 wP wKS [[5], [6]] none [0]
        [[3]] (by decide) (by decide) (by decide) (by decide) (by decide)).2
      (by decide) (by decide) (by decide)⟩

/-- Counterexample to C3 as stated: with the small preset, duplicate indices
`[0, 0]` whose first scattered cell consists of `Fr::null()` values escape the
duplicate check (the slot still looks untouched), and with all
`CELLS_PER_EXT_BLOB` cells provided no recovery runs: the call succeeds. -/
theorem recover_duplicate_index_accepted :
    (recover_cells_and_kzg_proofs 1 wP wKS [[5], [6]] none [0, 0]
        [[0], [0]]).result = .ok () ∧
    ¬ ([0, 0] : List Nat).Nodup := by
  constructor
  · decide
  · decide

/-- C3 (amended): a duplicated target index is rejected with the
`DuplicateIndex` error (`"Invalid output cell"`) provided the
earlier-scattered copy of the duplicate — the cell at the earlier of the two
positions sharing the index — contains at least one non-null element; the
other provided cells may be arbitrary, all-null included. -/
theorem recover_duplicate_index_rejected (FEPC : Nat) (P : PresetM)
    (ks : KZGSettingsM F G H) (rc : List (List F)) (rp : Option (List G))
    (ci : List Nat) (cells : List (List F))
    (hout : rc.length = P.CELLS_PER_EXT_BLOB)
    (hproofs : someAndLenNe rp P.CELLS_PER_EXT_BLOB = false)
    (hcount : cells.length = ci.length)
    (hmax : cells.length ≤ P.CELLS_PER_EXT_BLOB)
    (hmin : P.CELLS_PER_EXT_BLOB / 2 ≤ cells.length)
    (hvalid : ∀ i ∈ ci, i < P.CELLS_PER_EXT_BLOB)
    (hdup : ∃ a b, a < b ∧ b < ci.length ∧ ci.getD a 0 = ci.getD b 0 ∧
      ((cells.getD a []).any fun fr => !isNull fr) = true) :
    (recover_cells_and_kzg_proofs FEPC P ks rc rp ci cells).result =
      .error .invalidOutputCell := by
  unfold recover_cells_and_kzg_proofs
  rw [if_neg (by
      intro hor
      rcases hor with h | h
      · exact h hout
      · rw [hproofs] at h
        exact Bool.false_ne_true h),
    if_neg (by omega), if_neg (by omega), if_neg (by omega),
    if_neg (by
      rintro ⟨i, hi, hge⟩
      have := hvalid i hi
      omega)]
  obtain ⟨a, b, hab, hb, heq, hnn⟩ := hdup
  have ha : a < ci.length := lt_trans hab hb
  have hza := zip_getD 0 ([] : List F) ci cells a ha (by omega)
  have hzb := zip_getD 0 ([] : List F) ci cells b hb (by omega)
  have hscat := scatter_cells_dup_rejects (ci.zip cells)
    (rc.map fun cell => cell.map fun _ => (FrNullM.null : F)) a b hab
    (by rw [List.length_zip]; omega)
    (by rw [hza, hzb]; exact heq.symm)
    (by
      rw [hza, List.length_map, hout]
      exact hvalid _ (getD_mem_of_lt ci a 0 ha))
    (by rw [hza]; exact hnn)
  rcases hp : scatter_cells (ci.zip cells)
      (rc.map fun cell => cell.map fun _ => (FrNullM.null : F)) with
    ⟨scattered, sres⟩
  rw [hp] at hscat ⊢
  have hs2 : sres = .error .invalidOutputCell := hscat
  rw [hs2]

/-- Witness for the amended C3: positions 0 and 1 share target index 0 and
the earlier copy `[1]` is non-null, so the call is rejected at the small
preset. -/
theorem recover_duplicate_index_rejected_witness :
    ((0 : Nat) < 1 ∧
      ((([[1], [1]] : List (List (Fin 17))).getD 0 []).any
        fun fr => !isNull fr) = true) ∧
    (recover_cells_and_kzg_proofs 1 wP wKS [[5], [6]] none [0, 0]
        [[1], [1]]).result = .error .invalidOutputCell :=
  ⟨⟨by decide, by decide⟩,
    recover_duplicate_index_rejected 1 wP wKS [[5], [6]] none [0, 0]
      [[1], [1]] (by decide) (by decide) (by decide) (by decide) (by decide)
      (by decide) ⟨0, 1, by decide, by decide, by decide, by decide⟩⟩

/-- Counterexample to C4 as stated: a duplicate-index error is detected
mid-scatter, after the output cells were already nulled and partially
overwritten — the call fails but `recovered_cells` no longer holds its
pre-call contents. -/
theorem recover_error_clobbers_outputs :
    (recover_cells_and_kzg_proofs 1 wP wKS [[5], [6]] none [0, 0]
        [[1], [1]]).result = .error .invalidOutputCell ∧
    (recover_cells_and_kzg_proofs 1 wP wKS [[5], [6]] none [0, 0]
        [[1], [1]]).recovered_cells ≠ [[5], [6]] := by
  constructor
  · decide
  · decide

/-- C4 (amended): the output buffers are guaranteed untouched only for the
errors of the initial validation phase (invalid output length, count
mismatch, too many cells, insufficient cells, out-of-range index); errors
detected after the scatter begins may leave the outputs partially
overwritten. -/
theorem recover_unchanged_on_validation_error (FEPC : Nat) (P : PresetM)
    (ks : KZGSettingsM F G H) (rc : List (List F)) (rp : Option (List G))
    (ci : List Nat) (cells : List (List F)) (e : Err)
    (h : (recover_cells_and_kzg_proofs FEPC P ks rc rp ci cells).result =
      .error e)
    (hval : e = .invalidOutputLength ∨ e = .cellIndicesMismatch ∨
      e = .cellLengthTooLarge ∨ e = .insufficientCells ∨
      e = .cellIndexTooLarge) :
    (recover_cells_and_kzg_proofs FEPC P ks rc rp ci cells).recovered_cells
        = rc ∧
      (recover_cells_and_kzg_proofs FEPC P ks rc rp ci
        cells).recovered_proofs = rp := by
  rcases recover_result_cases _ _ _ _ _ _ _ _ h with
    ⟨_, hc1, hc2⟩ | ⟨hne, _⟩ | hsafe
  · exact ⟨hc1, hc2⟩
  · subst hne
    rcases hval with h1 | h1 | h1 | h1 | h1 <;> cases h1
  · exfalso
    rcases hsafe with h1 | h1 | h1 | h1 | h1 | h1 | h1 | h1 <;> subst h1 <;>
      rcases hval with h2 | h2 | h2 | h2 | h2 <;> cases h2

/-- Witness for the amended C4: an invalid output length is reported with
both buffers untouched. -/
theorem recover_unchanged_on_validation_error_witness :
    (recover_cells_and_kzg_proofs 1 wP wKS ([] : List (List (Fin 17))) none
        [] []).result = .error .invalidOutputLength ∧
    ((recover_cells_and_kzg_proofs 1 wP wKS ([] : List (List (Fin 17))) none
        [] []).recovered_cells = [] ∧
      (recover_cells_and_kzg_proofs 1 wP wKS ([] : List (List (Fin 17))) none
        [] []).recovered_proofs = none) :=
  ⟨by decide,
    recover_unchanged_on_validation_error 1 wP wKS [] none [] []
      .invalidOutputLength (by decide) (Or.inl rfl)⟩

end Recovery

section Verify

variable {F : Type} [Field F] [DecidableEq F]
variable {G H : Type} [AddCommGroup G] [Module F G] [DecidableEq G] [Inhabited H]

/-- Big-endian 8-byte rendering of a `u64` (Rust's `to_be_bytes`), with bytes
as natural numbers. -/
def u64be (n : Nat) : List Nat :=
  [n / 2 ^ 56 % 256, n / 2 ^ 48 % 256, n / 2 ^ 40 % 256, n / 2 ^ 32 % 256,
   n / 2 ^ 24 % 256, n / 2 ^ 16 % 256, n / 2 ^ 8 % 256, n % 256]

/-- The crate constant `RANDOM_CHALLENGE_KZG_CELL_BATCH_DOMAIN = *b"RCKZGCBATCH__V1_"`
of `das.rs` (the 16 ASCII codes). -/
def RANDOM_CHALLENGE_KZG_CELL_BATCH_DOMAIN : List Nat :=
  [82, 67, 75, 90, 71, 67, 66, 65, 84, 67, 72, 95, 95, 86, 49, 95]

/-- One iteration `i` of the `deduplicate_commitments` loop of `das.rs` on the
state (working vector, index map, `new_count`): scan the compacted prefix
`[0, new_count)` for `commitments[i]` (`List.find?` stops at the first hit,
like the source's `break`); on a hit record the position in the index map,
otherwise append to the compacted prefix. -/
def dedup_step (st : List G × List Nat × Nat) (i : Nat) :
    List G × List Nat × Nat :=
  match (List.range st.2.2).find? fun j => decide (st.1.getD j 0 = st.1.getD i 0) with
  | some j => (st.1, st.2.1.set i j, st.2.2)
  | none => (st.1.set st.2.2 (st.1.getD i 0), st.2.1.set i st.2.2, st.2.2 + 1)

/-- `deduplicate_commitments(commitments, indicies, count)` of `das.rs`: in-place
compaction of duplicate commitments into the prefix of the vector, recording
each slot's compacted position in `indicies`.  The returned triple is the state
of the three `&mut` parameters on return; note the source never writes the
local `new_count` back through `count`, so the returned count is unchanged and
the compacted length is discarded. -/
def deduplicate_commitments (commitments : List G) (indicies : List Nat)
    (count : Nat) : List G × List Nat × Nat :=
  if count = 0 then (commitments, indicies, count)
  else
    let st := (List.range' 1 (count - 1)).foldl dedup_step
      (commitments, indicies.set 0 0, 1)
    (st.1, st.2.1, count)

/-- `get_inv_coset_shift_for_cell` of `das.rs` (its `FIELD_ELEMENTS_PER_CELL`
generic is unused and dropped).  The source's `CELL_INDICES_RBL[cell_index]`
panics for `cell_index ≥ 128`; the model totalises that read with `getD`. -/
def get_inv_coset_shift_for_cell (P : PresetM) (cell_index : Nat)
    (fft_settings : FFTSettingsM F) : Except Err F :=
  let cell_index_rbl := CELL_INDICES_RBL.getD cell_index 0
  if cell_index_rbl > P.FIELD_ELEMENTS_PER_EXT_BLOB then
    .error .invalidCellIndex
  else
    let inv_coset_factor_idx := P.FIELD_ELEMENTS_PER_EXT_BLOB - cell_index_rbl
    if inv_coset_factor_idx > P.FIELD_ELEMENTS_PER_EXT_BLOB then
      .error .invalidCellIndex
    else
      .ok (fft_settings.rootsOfUnity inv_coset_factor_idx)

/-- `get_coset_shift_pow_for_cell` of `das.rs`; as above, the panicking table
read is totalised with `getD`. -/
def get_coset_shift_pow_for_cell (FIELD_ELEMENTS_PER_CELL : Nat) (P : PresetM)
    (cell_index : Nat) (fft_settings : FFTSettingsM F) : Except Err F :=
  let cell_idx_rbl := CELL_INDICES_RBL.getD cell_index 0
  let h_k_pow_idx := cell_idx_rbl * FIELD_ELEMENTS_PER_CELL
  if h_k_pow_idx > P.FIELD_ELEMENTS_PER_EXT_BLOB then
    .error .invalidCellIndex
  else
    .ok (fft_settings.rootsOfUnity h_k_pow_idx)

/-- `computed_weighted_sum_of_proofs` of `das.rs`: after the length check,
weight `r_powers[i]` by the coset factor power of `cell_indices[i]` and take
one `g1_lincomb` over the proofs. -/
def computed_weighted_sum_of_proofs (FIELD_ELEMENTS_PER_CELL : Nat)
    (P : PresetM) (proofs : List G) (r_powers : List F)
    (cell_indices : List Nat) (fft_settings : FFTSettingsM F) : Except Err G :=
  if r_powers.length ≠ proofs.length ∨ cell_indices.length ≠ proofs.length then
    .error .lengthMismatch
  else
    ((List.range proofs.length).mapM fun i =>
        (get_coset_shift_pow_for_cell FIELD_ELEMENTS_PER_CELL P
            (cell_indices.getD i 0) fft_settings).map
          fun h_k_pow => r_powers.getD i 0 * h_k_pow).map
      fun weighted_powers_of_r => g1_lincomb proofs weighted_powers_of_r proofs.length

/-- `compute_r_powers_for_verify_cell_kzg_proof_batch` of `das.rs`.  The byte
buffer the source fills with `copy_from_slice` at fixed offsets is rendered as
the concatenation of the same fragments, faithful because the offsets assume
exactly the encodings' sizes (the spec's wire sizes, from `eip_4844` which is
not under `src/`: `BYTES_PER_COMMITMENT = BYTES_PER_PROOF = 48`,
`BYTES_PER_FIELD_ELEMENT = 32`); `offset` is accumulated by the same constant
increments, and the source's final `offset != input_size` guard is kept.
Modelled from the spec: the `hash` + `hash_to_bls_field` composite is the
backend's `hashToField`. -/
def compute_r_powers_for_verify_cell_kzg_proof_batch
    (FIELD_ELEMENTS_PER_CELL : Nat) (be : BackendM F G H) (commitments : List G)
    (commitment_indices : List Nat) (cell_indices : List Nat)
    (cells : List (List F)) (proofs : List G) : Except Err (List F) :=
  if commitment_indices.length ≠ cells.length ∨ cell_indices.length ≠ cells.length
      ∨ proofs.length ≠ cells.length then
    .error .cellCountMismatch
  else
    let input_size := 16 + 8 + 8 + 8
      + commitments.length * 48
      + cells.length * 8
      + cells.length * 8
      + cells.length * (FIELD_ELEMENTS_PER_CELL * 32)
      + cells.length * 48
    let offset := 40 + commitments.length * 48
      + cells.length * (8 + (8 + (FIELD_ELEMENTS_PER_CELL * 32 + 48)))
    if offset ≠ input_size then
      .error .challengeLength
    else
      let bytes := RANDOM_CHALLENGE_KZG_CELL_BATCH_DOMAIN
        ++ u64be FIELD_ELEMENTS_PER_CELL
        ++ u64be commitments.length
        ++ u64be cells.length
        ++ (commitments.flatMap fun commitment => be.g1ToBytes commitment)
        ++ ((List.range cells.length).flatMap fun i =>
            u64be (commitment_indices.getD i 0)
            ++ u64be (cell_indices.getD i 0)
            ++ ((cells.getD i []).flatMap fun fr => be.frToBytes fr)
            ++ be.g1ToBytes (proofs.getD i 0))
      .ok (compute_powers (be.hashToField bytes) cells.length)

/-- `compute_commitment_to_aggregated_interpolation_poly` of `das.rs`.  The
scatter into `aggregated_column_cells` totalises the source's panicking
indexing with `getD` and out-of-range `set` as a no-op; the boolean table
`is_cell_used` (written at `is_cell_used[*cell_index]`, a panic when out of
range) is read back as `cell_indices.contains i`.  The in-place
`reverse_bit_order` of the segment `[i·FEPC, (i+1)·FEPC)` touches no other
iteration's segment, so the model reverses the extracted segment. -/
def compute_commitment_to_aggregated_interpolation_poly
    (FIELD_ELEMENTS_PER_CELL : Nat) (P : PresetM) (r_powers : List F)
    (cell_indices : List Nat) (cells : List (List F))
    (fft_settings : FFTSettingsM F) (g1_monomial : List G) : Except Err G :=
  let aggregated_column_cells := (List.range cell_indices.length).foldl
    (fun acc cell_index => (List.range FIELD_ELEMENTS_PER_CELL).foldl
      (fun acc fr_index =>
        let array_index :=
          cell_indices.getD cell_index 0 * FIELD_ELEMENTS_PER_CELL + fr_index
        acc.set array_index
          (acc.getD array_index 0
            + (cells.getD cell_index []).getD fr_index 0 * r_powers.getD cell_index 0))
      acc)
    (List.replicate (P.CELLS_PER_EXT_BLOB * FIELD_ELEMENTS_PER_CELL) (0 : F))
  ((List.range P.CELLS_PER_EXT_BLOB).foldlM
    (fun aggregated_interpolation_poly i =>
      if cell_indices.contains i then
        (reverse_bit_order
            ((aggregated_column_cells.drop (i * FIELD_ELEMENTS_PER_CELL)).take
              FIELD_ELEMENTS_PER_CELL)).bind fun segment =>
        (fftFr fft_settings segment true).bind fun column_interpolation_poly =>
        (get_inv_coset_shift_for_cell P i fft_settings).map fun inv_coset_factor =>
          List.zipWith (fun a c => a + c) aggregated_interpolation_poly
            (shift_poly column_interpolation_poly inv_coset_factor)
      else
        pure aggregated_interpolation_poly)
    (List.replicate FIELD_ELEMENTS_PER_CELL (0 : F))).map
    fun aggregated_interpolation_poly =>
      g1_lincomb g1_monomial aggregated_interpolation_poly FIELD_ELEMENTS_PER_CELL

/-- `verify_cell_kzg_proof_batch` of `das.rs` (the non-`parallel` build: the
`any` scans are sequential and `compute_weighted_sum_of_commitments` is the
sequential implementation).  `cell_index >= CELLS_PER_EXT_BLOB` is checked
against the crate-level constant, not `P`.  The dedup call never updates the
caller's `new_count` (see `deduplicate_commitments`), so the slice
`&unique_commitments[0..new_count]` is the whole working vector; the validity
scan over `unique_commitments` likewise runs over the whole vector. -/
def verify_cell_kzg_proof_batch (FIELD_ELEMENTS_PER_CELL : Nat) (P : PresetM)
    (be : BackendM F G H) (ks : KZGSettingsM F G H) (commitments : List G)
    (cell_indices : List Nat) (cells : List (List F)) (proofs : List G) :
    Except Err Bool :=
  if cells.length ≠ cell_indices.length then .error .cellCountMismatch
  else if commitments.length ≠ cells.length then .error .commitmentCountMismatch
  else if proofs.length ≠ cells.length then .error .proofCountMismatch
  else if cells.isEmpty then .ok true
  else if cell_indices.any fun cell_index =>
      decide (CELLS_PER_EXT_BLOB ≤ cell_index) then
    .error .invalidCellIndex
  else if proofs.any fun proof => !(be.isValidG1 proof) then
    .error .proofNotValid
  else
    let dedup := deduplicate_commitments commitments
      (List.replicate cells.length 0) commitments.length
    if dedup.1.any fun commitment => !(be.isValidG1 commitment) then
      .error .commitmentNotValid
    else
      let unique_commitments := dedup.1.take dedup.2.2
      (compute_r_powers_for_verify_cell_kzg_proof_batch FIELD_ELEMENTS_PER_CELL
          be unique_commitments dedup.2.1 cell_indices cells proofs).bind
        fun r_powers =>
      (compute_commitment_to_aggregated_interpolation_poly
          FIELD_ELEMENTS_PER_CELL P r_powers cell_indices cells ks.fftSettings
          ks.g1Monomial).bind fun interpolation_poly_commit =>
      (computed_weighted_sum_of_proofs FIELD_ELEMENTS_PER_CELL P proofs
          r_powers cell_indices ks.fftSettings).map fun weighted_sum_of_proofs =>
        be.pairingVerify
          (compute_weighted_sum_of_commitments unique_commitments dedup.2.1
              r_powers
            - interpolation_poly_commit + weighted_sum_of_proofs)
          be.g2Generator
          (g1_lincomb proofs r_powers cells.length)
          (ks.g2Monomial.getD FIELD_ELEMENTS_PER_CELL default)

@[simp] theorem except_map_ok {ε α β : Type} (a : α) (g : α → β) :
    Except.map g (Except.ok a : Except ε α) = Except.ok (g a) := rfl

theorem dedup_step_idxs_length (st : List G × List Nat × Nat) (i : Nat) :
    (dedup_step st i).2.1.length = st.2.1.length := by
  unfold dedup_step
  cases hf : (List.range st.2.2).find? fun j => decide (st.1.getD j 0 = st.1.getD i 0) with
  | none => simp
  | some j => simp

theorem dedup_foldl_idxs_length (l : List Nat) (st : List G × List Nat × Nat) :
    (l.foldl dedup_step st).2.1.length = st.2.1.length := by
  induction l generalizing st with
  | nil => rfl
  | cons a t ih => rw [List.foldl_cons, ih, dedup_step_idxs_length]

theorem dedup_idxs_length (commitments : List G) (idxs : List Nat) (count : Nat) :
    (deduplicate_commitments commitments idxs count).2.1.length = idxs.length := by
  unfold deduplicate_commitments
  split
  · rfl
  · show ((List.range' 1 (count - 1)).foldl dedup_step
      (commitments, idxs.set 0 0, 1)).2.1.length = idxs.length
    rw [dedup_foldl_idxs_length]
    exact List.length_set idxs 0 0

set_option maxRecDepth 4000 in
theorem cell_indices_rbl_le (u : Nat) : CELL_INDICES_RBL.getD u 0 ≤ 127 := by
  by_cases h : u < 128
  · have hall : ∀ v ∈ List.range 128, CELL_INDICES_RBL.getD v 0 ≤ 127 := by decide
    exact hall u (List.mem_range.mpr h)
  · rw [getD_eq_default]
    · omega
    · have hlen : CELL_INDICES_RBL.length = 128 := rfl
      omega

theorem get_inv_coset_shift_for_cell_ok (P : PresetM) (u : Nat)
    (fs : FFTSettingsM F) (hP : 127 ≤ P.FIELD_ELEMENTS_PER_EXT_BLOB) :
    get_inv_coset_shift_for_cell P u fs
      = .ok (fs.rootsOfUnity
          (P.FIELD_ELEMENTS_PER_EXT_BLOB - CELL_INDICES_RBL.getD u 0)) := by
  have h1 := cell_indices_rbl_le u
  simp only [get_inv_coset_shift_for_cell]
  rw [if_neg (by omega), if_neg (by omega)]

theorem get_coset_shift_pow_for_cell_ok (FEPC : Nat) (P : PresetM) (u : Nat)
    (fs : FFTSettingsM F) (hP : 127 * FEPC ≤ P.FIELD_ELEMENTS_PER_EXT_BLOB) :
    get_coset_shift_pow_for_cell FEPC P u fs
      = .ok (fs.rootsOfUnity (CELL_INDICES_RBL.getD u 0 * FEPC)) := by
  have h1 := cell_indices_rbl_le u
  have h2 : CELL_INDICES_RBL.getD u 0 * FEPC ≤ P.FIELD_ELEMENTS_PER_EXT_BLOB :=
    le_trans (Nat.mul_le_mul_right FEPC h1) hP
  simp only [get_coset_shift_pow_for_cell]
  rw [if_neg (by omega)]

theorem computed_weighted_sum_of_proofs_ok (FEPC : Nat) (P : PresetM)
    (proofs : List G) (r_powers : List F) (cell_indices : List Nat)
    (fs : FFTSettingsM F) (hr : r_powers.length = proofs.length)
    (hc : cell_indices.length = proofs.length)
    (hP : 127 * FEPC ≤ P.FIELD_ELEMENTS_PER_EXT_BLOB) :
    ∃ g, computed_weighted_sum_of_proofs FEPC P proofs r_powers cell_indices fs
      = .ok g := by
  simp only [computed_weighted_sum_of_proofs]
  rw [if_neg (by omega)]
  have hstep : ∀ i ∈ List.range proofs.length, ∃ b,
      ((get_coset_shift_pow_for_cell FEPC P (cell_indices.getD i 0) fs).map
        fun h_k_pow => r_powers.getD i 0 * h_k_pow) = .ok b ∧ True := by
    intro i _
    rw [get_coset_shift_pow_for_cell_ok FEPC P (cell_indices.getD i 0) fs hP]
    exact ⟨_, rfl, trivial⟩
  obtain ⟨bs, hbs, -, -⟩ := mapM_ok _ (fun _ => True)
    (List.range proofs.length) hstep
  rw [hbs, except_map_ok]
  exact ⟨_, rfl⟩

theorem compute_r_powers_ok (FEPC : Nat) (be : BackendM F G H)
    (commitments : List G) (commitment_indices cell_indices : List Nat)
    (cells : List (List F)) (proofs : List G)
    (h1 : commitment_indices.length = cells.length)
    (h2 : cell_indices.length = cells.length)
    (h3 : proofs.length = cells.length) :
    ∃ rs, compute_r_powers_for_verify_cell_kzg_proof_batch FEPC be commitments
        commitment_indices cell_indices cells proofs = .ok rs
      ∧ rs.length = cells.length := by
  simp only [compute_r_powers_for_verify_cell_kzg_proof_batch]
  rw [if_neg (by omega), if_neg (by push_neg; ring)]
  exact ⟨_, rfl, by simp [compute_powers]⟩

theorem foldlM_error {α β : Type} (f : β → α → Except Err β) (init : β)
    (l : List α) (e : Err) (h : l.foldlM f init = .error e) :
    ∃ b a, a ∈ l ∧ f b a = .error e := by
  induction l generalizing init with
  | nil => exact absurd h (by intro hc; injection hc)
  | cons x t ih =>
    rw [List.foldlM_cons] at h
    cases hf : f init x with
    | error e' =>
      rw [hf, except_monadbind_error] at h
      injection h with h
      refine ⟨init, x, List.mem_cons_self x t, ?_⟩
      rw [hf, h]
    | ok b =>
      rw [hf, except_monadbind_ok] at h
      obtain ⟨b', a, ha, hfa⟩ := ih b h
      exact ⟨b', a, List.mem_cons_of_mem _ ha, hfa⟩

theorem interp_error_cases (FEPC : Nat) (P : PresetM) (r_powers : List F)
    (cell_indices : List Nat) (cells : List (List F)) (fs : FFTSettingsM F)
    (g1m : List G) (e : Err)
    (hP : 127 ≤ P.FIELD_ELEMENTS_PER_EXT_BLOB)
    (h : compute_commitment_to_aggregated_interpolation_poly FEPC P r_powers
        cell_indices cells fs g1m = .error e) :
    e = .rboLength ∨ e = .fftLength := by
  simp only [compute_commitment_to_aggregated_interpolation_poly] at h
  have h' := map_error _ _ _ h
  obtain ⟨b, u, _, hstep⟩ := foldlM_error _ _ _ _ h'
  by_cases hc : cell_indices.contains u
  · rw [if_pos hc] at hstep
    rcases bind_error _ _ _ hstep with hrbo | ⟨seg, _, h2⟩
    · exact Or.inl (reverse_bit_order_error _ _ hrbo)
    rcases bind_error _ _ _ h2 with hfft | ⟨cip, _, h3⟩
    · exact Or.inr (fftFr_error _ _ _ _ hfft)
    · rw [get_inv_coset_shift_for_cell_ok P u fs hP, except_map_ok] at h3
      exact absurd h3 (by intro hx; injection hx)
  · rw [if_neg hc] at hstep
    exact absurd hstep (by intro hx; injection hx)

/-- C10: for every non-empty, length-consistent input (and a preset whose
`FIELD_ELEMENTS_PER_EXT_BLOB` is large enough that the coset-shift lookups of
the later pipeline never reject — `127 ≤ FEEB` and `127·FEPC ≤ FEEB`, both true
for every real preset), `verify_cell_kzg_proof_batch` returns the error
`"Invalid cell index"` exactly when some cell index is `≥ 128`, the crate-level
`CELLS_PER_EXT_BLOB` — the preset's own `P.CELLS_PER_EXT_BLOB` is arbitrary
here and plays no role in the check. -/
theorem verify_cell_kzg_proof_batch_index_check (FEPC : Nat) (P : PresetM)
    (be : BackendM F G H) (ks : KZGSettingsM F G H) (commitments : List G)
    (cell_indices : List Nat) (cells : List (List F)) (proofs : List G)
    (hne : cells ≠ [])
    (h1 : cells.length = cell_indices.length)
    (h2 : commitments.length = cells.length)
    (h3 : proofs.length = cells.length)
    (hP1 : 127 ≤ P.FIELD_ELEMENTS_PER_EXT_BLOB)
    (hP2 : 127 * FEPC ≤ P.FIELD_ELEMENTS_PER_EXT_BLOB) :
    (verify_cell_kzg_proof_batch FEPC P be ks commitments cell_indices cells
        proofs = .error .invalidCellIndex)
      ↔ ∃ i ∈ cell_indices, CELLS_PER_EXT_BLOB ≤ i := by
  simp only [verify_cell_kzg_proof_batch]
  rw [if_neg (by omega), if_neg (by omega), if_neg (by omega),
      if_neg (by simp only [List.isEmpty_iff]; exact hne)]
  constructor
  · intro h
    by_cases hidx : (cell_indices.any fun cell_index =>
        decide (CELLS_PER_EXT_BLOB ≤ cell_index)) = true
    · obtain ⟨i, hi, hp⟩ := List.any_eq_true.mp hidx
      exact ⟨i, hi, of_decide_eq_true hp⟩
    · exfalso
      rw [if_neg hidx] at h
      by_cases hpf : (proofs.any fun proof => !(be.isValidG1 proof)) = true
      · rw [if_pos hpf] at h
        exact absurd (Except.error.inj h) (by decide)
      rw [if_neg hpf] at h
      by_cases hcm : ((deduplicate_commitments commitments
          (List.replicate cells.length 0) commitments.length).1.any
            fun commitment => !(be.isValidG1 commitment)) = true
      · rw [if_pos hcm] at h
        exact absurd (Except.error.inj h) (by decide)
      rw [if_neg hcm] at h
      obtain ⟨rs, hrs, hrslen⟩ := compute_r_powers_ok FEPC be
        ((deduplicate_commitments commitments (List.replicate cells.length 0)
            commitments.length).1.take
          (deduplicate_commitments commitments (List.replicate cells.length 0)
            commitments.length).2.2)
        (deduplicate_commitments commitments (List.replicate cells.length 0)
          commitments.length).2.1
        cell_indices cells proofs
        (by rw [dedup_idxs_length, List.length_replicate]) h1.symm h3
      rw [hrs, except_bind_ok] at h
      cases hint : compute_commitment_to_aggregated_interpolation_poly FEPC P rs
          cell_indices cells ks.fftSettings ks.g1Monomial with
      | error e =>
        rw [hint, except_bind_error] at h
        have he := Except.error.inj h
        rcases interp_error_cases FEPC P rs cell_indices cells ks.fftSettings
          ks.g1Monomial e hP1 hint with h' | h' <;> rw [h'] at he <;>
          exact absurd he (by decide)
      | ok ip =>
        rw [hint, except_bind_ok] at h
        obtain ⟨g, hg⟩ := computed_weighted_sum_of_proofs_ok FEPC P proofs rs
          cell_indices ks.fftSettings (by omega) (by omega) hP2
        rw [hg, except_map_ok] at h
        injection h
  · rintro ⟨i, hi, hge⟩
    rw [if_pos (List.any_eq_true.mpr ⟨i, hi, decide_eq_true hge⟩)]

/-- C8: `verify_cell_kzg_proof_batch` called with all four input arrays empty
returns `Ok(true)`: the three count checks pass trivially and the
`cells.is_empty()` early return fires before any index or validity check. -/
theorem verify_cell_kzg_proof_batch_empty (FEPC : Nat) (P : PresetM)
    (be : BackendM F G H) (ks : KZGSettingsM F G H) :
    verify_cell_kzg_proof_batch FEPC P be ks [] [] [] [] = .ok true := rfl

/-- A concrete backend over the `Fin 17` toy field for witnesses: every point
valid, empty byte encodings, constant hash, trivial pairing. -/
def wBE : BackendM (Fin 17) (Fin 17) Unit :=
  ⟨fun _ => true, fun _ => [], fun _ => [], fun _ => 3, (), fun _ _ _ _ => true⟩

/-- Witness for C10 at a concrete input: one cell with target index 200 ≥ 128
is rejected with `Invalid cell index` even though the preset's own
`CELLS_PER_EXT_BLOB` is 2. -/
theorem verify_cell_kzg_proof_batch_index_check_witness :
    verify_cell_kzg_proof_batch 1 ⟨1, 127, 2⟩ wBE wKS [5] [200] [[0]] [4]
      = .error .invalidCellIndex :=
  (verify_cell_kzg_proof_batch_index_check 1 ⟨1, 127, 2⟩ wBE wKS [5] [200]
      [[0]] [4] (by decide) (by decide) (by decide) (by decide) (by decide)
      (by decide)).mpr ⟨200, by decide, by decide⟩

end Verify

end RustKZG
